import Mathlib

/-!
# Verification of the glitter format-string core

A shallow embedding of the glitter expression language (src/lib of the
repository): the AST (`ast.rs`), the style engine (`ast.rs` `CompleteStyle`
together with `color.rs`), the interpreter (`interpreter.rs`) and the nom
based parser (`parser.rs` and `parser/combinator.rs`), with theorems about
the behaviour the specification describes.

Rust `u8`/`u16` counters are modelled as `Nat` (their displayed form is the
plain decimal `Nat.repr`, which agrees with Rust for every value the Rust
types can hold); `&str`/`String` as Lean `String` or `List Char`; the output
sink as an accumulated `String` (an infallible writer).
-/

set_option maxRecDepth 10000

namespace Glitter

/-! ## Data model (src/lib/ast.rs) -/

/-- `ast.rs` `Color`: the closed colour enumeration.  RGB channels are `u8`
in Rust; they are `Nat` here and every channel that the parser can produce
is at most 255 (`u8_from_bytes` panics on anything larger). -/
inductive Color where
  | Red | Green | Yellow | Blue | Magenta | Cyan | White | Black
  | RGB (r g b : Nat)
deriving DecidableEq, Repr

/-- `ast.rs` `Style`: an atomic style token. -/
inductive Style where
  | Reset | Bold | Underline | Italic
  | Fg (c : Color)
  | Bg (c : Color)
deriving DecidableEq, Repr

/-- `ast.rs` `CompleteStyle`: the aggregate of a sequence of style tokens.
`color.rs` `StyleContext` has exactly the same five fields; the interpreter
of src/lib applies the `color.rs` methods to this type, so the embedding
defines both files' operations on the one structure. -/
structure CompleteStyle where
  fg : Option Color
  bg : Option Color
  bold : Bool
  italics : Bool
  underline : Bool
deriving DecidableEq, Repr

/-- `impl Default for CompleteStyle`. -/
def CompleteStyle.cdefault : CompleteStyle :=
  { fg := none, bg := none, bold := false, italics := false, underline := false }

/-- `CompleteStyle::add`: fold a single token into the aggregate
(`Reset` replaces the whole accumulator with the default). -/
def CompleteStyle.add (s : CompleteStyle) (style : Style) : CompleteStyle :=
  match style with
  | .Fg color => { s with fg := some color }
  | .Bg color => { s with bg := some color }
  | .Bold => { s with bold := true }
  | .Italic => { s with italics := true }
  | .Underline => { s with underline := true }
  | .Reset => CompleteStyle.cdefault

/-- `impl AddAssign for CompleteStyle`: `self += with`.  A right operand
equal to the default resets the accumulation; otherwise fields combine by
rightmost-wins-if-present (colours) or boolean or. -/
def CompleteStyle.addAssign (s w : CompleteStyle) : CompleteStyle :=
  if w = CompleteStyle.cdefault then CompleteStyle.cdefault
  else
    { fg := w.fg.or s.fg
      bg := w.bg.or s.bg
      bold := w.bold || s.bold
      italics := w.italics || s.italics
      underline := w.underline || s.underline }

/-- `ast.rs` `Name`: the closed enumeration of recognised status fields. -/
inductive Name where
  | Branch | Remote | Ahead | Behind | Conflict | Added | Untracked
  | Modified | Unstaged | Deleted | DeletedStaged | Renamed | Stashed | Quote
deriving DecidableEq, Repr

/-- `ast.rs` `Delimiter`. -/
inductive Delimiter where
  | Angle | Square | Curly | Parens
deriving DecidableEq, Repr

/-- `Delimiter::left`. -/
def Delimiter.left : Delimiter → String
  | .Angle => "<"
  | .Square => "["
  | .Curly => "\x7b"
  | .Parens => "("

/-- `Delimiter::right`. -/
def Delimiter.right : Delimiter → String
  | .Angle => ">"
  | .Square => "]"
  | .Curly => "\x7d"
  | .Parens => ")"

/-- `ast.rs` `Separator`: the eight fixed punctuation marks. -/
inductive Separator where
  | At | Bar | Dot | Comma | Space | Colon | Semicolon | Underscore
deriving DecidableEq, Repr

/-- `Separator::as_str`. -/
def Separator.asStr : Separator → String
  | .At => "@"
  | .Bar => "|"
  | .Dot => "."
  | .Comma => ","
  | .Space => " "
  | .Colon => ":"
  | .Semicolon => ";"
  | .Underscore => "_"

/-- `ast.rs` `Expression`.  The Rust `Tree` is the newtype
`struct Tree(pub Vec<Expression>)`; it is modelled directly as
`List Expression` here, so `sub : List Expression` stands for `sub: Tree`. -/
inductive Expression where
  | Named (name : Name) (sub : List Expression)
  | Format (style : CompleteStyle) (sub : List Expression)
  | Group (d : Delimiter) (sub : List Expression)
  | Literal (s : String)
  | Separator (s : Separator)
deriving Repr

/-! ## Canonical `Display` rendering (`impl fmt::Display` in ast.rs)

Rendering is into `List Char` (the same character sequence the Rust
`format!` produces). -/

/-- `impl fmt::Display for Name`. -/
def Name.display : Name → List Char
  | .Stashed => ['h']
  | .Branch => ['b']
  | .Remote => ['B']
  | .Ahead => ['+']
  | .Behind => ['-']
  | .Conflict => ['u']
  | .Added => ['A']
  | .Untracked => ['a']
  | .Modified => ['M']
  | .Unstaged => ['m']
  | .Deleted => ['d']
  | .DeletedStaged => ['D']
  | .Renamed => ['R']
  | .Quote => ['\\', '\'']

/-- `impl fmt::Display for Style` (the parseable tag of one token). -/
def Style.display : Style → List Char
  | .Reset => ['~']
  | .Bold => ['*']
  | .Underline => ['_']
  | .Italic => ['i']
  | .Fg .Red => ['r']
  | .Bg .Red => ['R']
  | .Fg .Green => ['g']
  | .Bg .Green => ['G']
  | .Fg .Yellow => ['y']
  | .Bg .Yellow => ['Y']
  | .Fg .Blue => ['b']
  | .Bg .Blue => ['B']
  | .Fg .Magenta => ['m']
  | .Bg .Magenta => ['M']
  | .Fg .Cyan => ['c']
  | .Bg .Cyan => ['C']
  | .Fg .White => ['w']
  | .Bg .White => ['W']
  | .Fg .Black => ['k']
  | .Bg .Black => ['K']
  | .Fg (.RGB r g b) =>
      '[' :: (Nat.repr r).data ++ ',' :: (Nat.repr g).data ++ ',' :: (Nat.repr b).data ++ [']']
  | .Bg (.RGB r g b) =>
      '\x7b' :: (Nat.repr r).data ++ ',' :: (Nat.repr g).data ++ ',' :: (Nat.repr b).data ++ ['\x7d']

/-- `impl fmt::Display for CompleteStyle`: the default renders as `Reset`;
otherwise fg, bg, bold, italics, underline in that order. -/
def CompleteStyle.display (s : CompleteStyle) : List Char :=
  if s = CompleteStyle.cdefault then Style.display .Reset
  else
    (match s.fg with | some c => Style.display (.Fg c) | none => [])
      ++ (match s.bg with | some c => Style.display (.Bg c) | none => [])
      ++ (if s.bold then Style.display .Bold else [])
      ++ (if s.italics then Style.display .Italic else [])
      ++ (if s.underline then Style.display .Underline else [])

mutual

/-- `impl fmt::Display for Expression`. -/
def Expression.display : Expression → List Char
  | .Named name sub =>
      Name.display name ++
        (match sub with
         | [] => []
         | _ :: _ => '(' :: displayList sub ++ [')'])
  | .Group d sub =>
      match d with
      | .Square => '[' :: displayList sub ++ [']']
      | .Angle => '<' :: displayList sub ++ ['>']
      | .Parens => '\\' :: '(' :: displayList sub ++ [')']
      | .Curly => '\x7b' :: displayList sub ++ ['\x7d']
  | .Format style sub =>
      '#' :: CompleteStyle.display style ++ '(' :: displayList sub ++ [')']
  | .Literal s => '\'' :: s.data ++ ['\'']
  | .Separator s => (Separator.asStr s).data

/-- `impl fmt::Display for Tree`: concatenation of the members' renderings. -/
def displayList : List Expression → List Char
  | [] => []
  | e :: es => Expression.display e ++ displayList es

end

/-! ## Style engine rendering (src/lib/color.rs)

The `e!` macro builds `"\x1B[" c (";" cn)* "m"`.  `write_to` renders a
complete style to ANSI bytes, `Difference.between` computes the minimal
transition, `write_difference` renders it. -/

/-- The single full-reset escape `e!()` = `"\x1B[0m"` (SGR 0). -/
def resetEscape : String := "\x1B[0m"

/-- Foreground escapes of `StyleContext::write_to`. -/
def fgEscape : Color → String
  | .Black => "\x1B[30m"
  | .Red => "\x1B[31m"
  | .Green => "\x1B[32m"
  | .Yellow => "\x1B[33m"
  | .Blue => "\x1B[34m"
  | .Magenta => "\x1B[35m"
  | .Cyan => "\x1B[36m"
  | .White => "\x1B[37m"
  | .RGB r g b =>
      "\x1B[38;2;" ++ Nat.repr r ++ ";" ++ Nat.repr g ++ ";" ++ Nat.repr b ++ "m"

/-- Background escapes of `StyleContext::write_to`. -/
def bgEscape : Color → String
  | .Black => "\x1B[40m"
  | .Red => "\x1B[41m"
  | .Green => "\x1B[42m"
  | .Yellow => "\x1B[43m"
  | .Blue => "\x1B[44m"
  | .Magenta => "\x1B[45m"
  | .Cyan => "\x1B[46m"
  | .White => "\x1B[47m"
  | .RGB r g b =>
      "\x1B[48;2;" ++ Nat.repr r ++ ";" ++ Nat.repr g ++ ";" ++ Nat.repr b ++ "m"

/-- `StyleContext::write_to`: the bytes written for one complete style; in
bash-prompt mode the run is wrapped in the readline invisible markers. -/
def CompleteStyle.writeTo (s : CompleteStyle) (bashPrompt : Bool) : String :=
  (if bashPrompt then "\x01" else "")
    ++ (if s = CompleteStyle.cdefault then resetEscape
        else
          (match s.fg with | some c => fgEscape c | none => "")
            ++ (match s.bg with | some c => bgEscape c | none => "")
            ++ (if s.bold then "\x1B[1m" else "")
            ++ (if s.italics then "\x1B[3m" else "")
            ++ (if s.underline then "\x1B[4m" else ""))
    ++ (if bashPrompt then "\x02" else "")

/-- `color.rs` `Difference`. -/
inductive Difference where
  | None
  | Add (c : CompleteStyle)
  | Reset
deriving DecidableEq, Repr

/-- `Difference::between(prev, next)`: `None` when equal, `Reset` when any
attribute of `prev` is absent from `next`, otherwise `Add` of only the
changed fields. -/
def Difference.between (prev next : CompleteStyle) : Difference :=
  if prev = next then .None
  else if (prev.fg.isSome && next.fg.isNone)
        || (prev.bg.isSome && next.bg.isNone)
        || (prev.bold && !next.bold)
        || (prev.italics && !next.italics)
        || (prev.underline && !next.underline) then .Reset
  else .Add
    { fg := if next.fg ≠ prev.fg then next.fg else none
      bg := if next.bg ≠ prev.bg then next.bg else none
      bold := !prev.bold && next.bold
      italics := !prev.italics && next.italics
      underline := !prev.underline && next.underline }

/-- `StyleContext::write_difference(self, w, prev, bash_prompt)`: the bytes
written to move the terminal from the style `prev` into the style `self`
(note the Rust receiver `self` is the *target* of the transition). -/
def CompleteStyle.writeDifference (self prev : CompleteStyle) (bashPrompt : Bool) : String :=
  match Difference.between prev self with
  | .Add style => style.writeTo bashPrompt
  | .Reset =>
      if bashPrompt then
        "\x01" ++ resetEscape ++ self.writeTo false ++ "\x02"
      else
        resetEscape ++ self.writeTo false
  | .None => ""

/-! ## Supporting lemmas for CompleteStyle addition -/

/-- Combining two non-default styles never yields the default: some field of
the left operand survives the rightmost-wins merge. -/
theorem addAssign_ne_cdefault (b c : CompleteStyle) (hb : b ≠ CompleteStyle.cdefault)
    (hc : c ≠ CompleteStyle.cdefault) :
    CompleteStyle.addAssign b c ≠ CompleteStyle.cdefault := by
  obtain ⟨bf, bb, b1, b2, b3⟩ := b
  obtain ⟨cf, cb, c1, c2, c3⟩ := c
  simp only [CompleteStyle.addAssign, if_neg hc]
  intro h
  apply hb
  cases bf <;> cases cf <;> cases bb <;> cases cb <;>
    simp_all [CompleteStyle.cdefault, CompleteStyle.mk.injEq, Option.or]

/-! ## Claim C5 -/

/-- C5 counterexample: `CompleteStyle` addition is not associative.  With
`a = {bold}`, `b = default()` (a folded `Reset`) and `c = {fg: Red}`,
`(a + b) + c = {fg: Red}` but `a + (b + c) = {bold, fg: Red}`. -/
theorem C5_addAssign_not_assoc :
    ¬ (CompleteStyle.addAssign
        (CompleteStyle.addAssign ⟨none, none, true, false, false⟩ CompleteStyle.cdefault)
        ⟨some .Red, none, false, false, false⟩
      = CompleteStyle.addAssign ⟨none, none, true, false, false⟩
        (CompleteStyle.addAssign CompleteStyle.cdefault ⟨some .Red, none, false, false, false⟩)) := by
  decide

/-- C5 (amended): `CompleteStyle` addition is associative provided the
middle operand does not equal `default()`; a `Reset` (default) middle
operand breaks associativity as the counterexample shows.  A default
rightmost operand is harmless: it collapses both sides to `default()`
through the reset branch.  Otherwise fields combine by
rightmost-wins-if-present (colours) or boolean or, which are associative. -/
theorem C5_addAssign_assoc_of_ne_default (a b c : CompleteStyle)
    (hb : b ≠ CompleteStyle.cdefault) :
    CompleteStyle.addAssign (CompleteStyle.addAssign a b) c
      = CompleteStyle.addAssign a (CompleteStyle.addAssign b c) := by
  by_cases hc : c = CompleteStyle.cdefault
  · subst hc
    simp [CompleteStyle.addAssign]
  · have hbc := addAssign_ne_cdefault b c hb hc
    simp only [CompleteStyle.addAssign, if_neg hb, if_neg hc] at hbc ⊢
    rw [if_neg hbc]
    simp [CompleteStyle.mk.injEq, Option.or_assoc, Bool.or_assoc]

/-- Witness for C5's amended theorem at concrete non-default operands. -/
theorem C5_addAssign_assoc_witness :
    CompleteStyle.addAssign
        (CompleteStyle.addAssign ⟨none, none, true, false, false⟩
          ⟨some .Green, none, false, false, false⟩)
        ⟨some .Red, none, false, false, false⟩
      = CompleteStyle.addAssign ⟨none, none, true, false, false⟩
        (CompleteStyle.addAssign ⟨some .Green, none, false, false, false⟩
          ⟨some .Red, none, false, false, false⟩) :=
  C5_addAssign_assoc_of_ne_default _ _ _ (by decide)

/-! ## Claim C8 -/

/-- C8: the style difference computation.  `between p p = None`; whenever
`next` drops an attribute `prev` had set the result is `Reset`; an `Add`
result carries exactly the changed fields; and the two concrete transitions
of the spec: `{bold} → {bold, fg:Red}` emits only the foreground-red
escape, while `{bold, fg:Red} → {fg:Red}` emits a full reset followed by
the foreground-red escape. -/
theorem C8_difference_spec :
    (∀ p, Difference.between p p = .None)
    ∧ (∀ p n : CompleteStyle,
        ((p.fg.isSome ∧ n.fg = none) ∨ (p.bg.isSome ∧ n.bg = none)
          ∨ (p.bold = true ∧ n.bold = false) ∨ (p.italics = true ∧ n.italics = false)
          ∨ (p.underline = true ∧ n.underline = false)) →
        Difference.between p n = .Reset)
    ∧ (∀ p n c : CompleteStyle, Difference.between p n = .Add c →
        (n.fg = p.fg → c.fg = none) ∧ (n.fg ≠ p.fg → c.fg = n.fg)
        ∧ (n.bg = p.bg → c.bg = none) ∧ (n.bg ≠ p.bg → c.bg = n.bg)
        ∧ c.bold = (!p.bold && n.bold) ∧ c.italics = (!p.italics && n.italics)
        ∧ c.underline = (!p.underline && n.underline))
    ∧ CompleteStyle.writeDifference ⟨some .Red, none, true, false, false⟩
        ⟨none, none, true, false, false⟩ false = fgEscape .Red
    ∧ CompleteStyle.writeDifference ⟨some .Red, none, false, false, false⟩
        ⟨some .Red, none, true, false, false⟩ false = resetEscape ++ fgEscape .Red := by
  refine ⟨?_, ?_, ?_, ?_, ?_⟩
  · intro p
    simp [Difference.between]
  · intro p n h
    have hne : p ≠ n := by
      rintro rfl
      rcases h with ⟨h1, h2⟩ | ⟨h1, h2⟩ | ⟨h1, h2⟩ | ⟨h1, h2⟩ | ⟨h1, h2⟩ <;>
        simp_all
    have hcond : ((p.fg.isSome && n.fg.isNone)
        || (p.bg.isSome && n.bg.isNone)
        || (p.bold && !n.bold)
        || (p.italics && !n.italics)
        || (p.underline && !n.underline)) = true := by
      rcases h with ⟨h1, h2⟩ | ⟨h1, h2⟩ | ⟨h1, h2⟩ | ⟨h1, h2⟩ | ⟨h1, h2⟩ <;>
        simp_all
    simp [Difference.between, if_neg hne, hcond]
  · intro p n c h
    simp only [Difference.between] at h
    by_cases hne : p = n
    · simp [if_pos hne] at h
    · rw [if_neg hne] at h
      by_cases hdrop : ((p.fg.isSome && n.fg.isNone)
          || (p.bg.isSome && n.bg.isNone)
          || (p.bold && !n.bold)
          || (p.italics && !n.italics)
          || (p.underline && !n.underline)) = true
      · simp [hdrop] at h
      · rw [if_neg hdrop] at h
        injection h with h2
        subst h2
        refine ⟨?_, ?_, ?_, ?_, rfl, rfl, rfl⟩ <;> intro hx <;> simp [hx]
  · decide
  · decide

/-- Witness for C8 at concrete styles: the Reset clause applied to
`{bold} → default` and the Add clause applied to the Add result of
`default → {bold}`. -/
theorem C8_difference_spec_witness :
    Difference.between ⟨none, none, true, false, false⟩ CompleteStyle.cdefault = .Reset ∧
    (⟨none, none, true, false, false⟩ : CompleteStyle).bold = true :=
  ⟨C8_difference_spec.2.1 ⟨none, none, true, false, false⟩ CompleteStyle.cdefault
      (Or.inr (Or.inr (Or.inl ⟨rfl, rfl⟩))),
    rfl⟩

/-! ## Interpreter (src/lib/interpreter.rs)

The sink `w` is modelled as an accumulated `String` inside `IState`; writes
to it always succeed, so `WriteError` never arises in the embedding.  The
mutable `command_queue` of the Rust `Interpreter` also lives in `IState`
(the immutable configuration fields stay in `Interpreter`).  Recursion is
by a fuel parameter: `fuelOut` marks exhaustion and is unreachable for the
fuel `evaluate` supplies on the runs proved below. -/

/-- `git.rs` `Stats`: the snapshot the interpreter reads (counters are
`u16` in Rust, `Nat` here). -/
structure Stats where
  untracked : Nat
  added_staged : Nat
  modified : Nat
  modified_staged : Nat
  renamed : Nat
  deleted : Nat
  deleted_staged : Nat
  ahead : Nat
  behind : Nat
  conflicts : Nat
  stashes : Nat
  branch : String
  remote : String
deriving Repr

/-- `Stats::default()`: all counters zero, both strings empty. -/
def Stats.zero : Stats := ⟨0, 0, 0, 0, 0, 0, 0, 0, 0, 0, 0, "", ""⟩

/-- `interpreter.rs` `InterpreterErr`, plus two embedding artefacts:
`panicked` models a Rust debug-build panic (the `drain_queue` subtraction
underflow, and the `unreachable!` separator arm), and `fuelOut` is the
embedding's recursion bound.  `WriteError` is kept for completeness but the
modelled sink never fails. -/
inductive InterpreterErr where
  | UnexpectedArgs (exp : Expression)
  | WriteError
  | panicked
  | fuelOut
deriving Repr

/-- `interpreter.rs` `WriteCommand`: one speculative output fragment. -/
inductive WriteCommand where
  | WriteContext (c : CompleteStyle)
  | WriteStr (s : String)
  | WriteString (s : String)
deriving Repr

/-- The mutable state: the `command_queue` of the Rust `Interpreter`
(pushes go to the back of the `Vec`) and the bytes written to the sink. -/
structure IState where
  queue : List WriteCommand
  out : String
deriving Repr

/-- Fresh state: empty queue (as built by `Interpreter::new`), nothing
written. -/
def IState.empty : IState := ⟨[], ""⟩

/-- The read-only configuration of `Interpreter::new(stats, allow_color,
bash_prompt)`. -/
structure Interpreter where
  stats : Stats
  allow_color : Bool
  bash_prompt : Bool

/-- `Interpreter::drain_queue(i)`: `truncate(len - i)`.  The `usize`
subtraction `len - i` underflows when `i > len`: a debug build of the Rust
panics there (a release build wraps, and `truncate` with a huge argument is
a no-op); the embedding models the checked debug semantics as `panicked`. -/
def drainQueue (i : Nat) (s : IState) : Except InterpreterErr IState :=
  if i ≤ s.queue.length then .ok { s with queue := s.queue.take (s.queue.length - i) }
  else .error .panicked

/-- Rendering of a single queued command when it is flushed
(`Interpreter::write_queue`'s match). -/
def renderCommand (bp : Bool) : WriteCommand → String
  | .WriteString s => s
  | .WriteContext c => c.writeTo bp
  | .WriteStr s => s

/-- `Interpreter::write_queue`: drain every queued command to the sink in
FIFO order. -/
def writeQueue (bp : Bool) (s : IState) : IState :=
  { queue := [], out := s.out ++ String.join (s.queue.map (renderCommand bp)) }

/-- `write!(w, ...)`: append directly to the sink. -/
def writeOut (txt : String) (s : IState) : IState := { s with out := s.out ++ txt }

/-- `self.command_queue.push(c)`. -/
def pushCmd (c : WriteCommand) (s : IState) : IState := { s with queue := s.queue ++ [c] }

/-- The `V1: fmt::Display + Empty` value handed to `optional_prefix`:
either a `u16` counter or a `String` stat. -/
inductive Val where
  | nat (n : Nat)
  | str (s : String)
deriving Repr

/-- The `Empty` trait: a counter is empty iff zero, a string iff empty. -/
def Val.isEmpty : Val → Bool
  | .nat n => n == 0
  | .str s => s.isEmpty

/-- `write!(w, "{}", val)`: decimal for counters, verbatim for strings. -/
def Val.render : Val → String
  | .nat n => Nat.repr n
  | .str s => s

/-- `Interpreter::interpret_literal` (reached only from the `Quote` arm):
write the literal without flushing the queue; a non-empty `sub` raises
`UnexpectedArgs`. -/
def interpretQuoteLiteral (sub : List Expression) (lit : String) (ctx : CompleteStyle)
    (st : IState) : Except InterpreterErr (CompleteStyle × Bool) × IState :=
  match sub with
  | [] => (.ok (ctx, true), writeOut lit st)
  | _ :: _ => (.error (.UnexpectedArgs (.Named .Quote sub)), st)

mutual

/-- `Interpreter::interpret`: dispatch on the expression.  `Separator` is
`unreachable!` in the Rust (handled by `interpret_tree`). -/
def interpret (it : Interpreter) : Nat → Expression → CompleteStyle → IState →
    Except InterpreterErr (CompleteStyle × Bool) × IState
  | 0, _, _, st => (.error .fuelOut, st)
  | fuel+1, e, ctx, st =>
    match e with
    | .Named name sub => interpretNamed it fuel name sub ctx st
    | .Group d sub =>
      match sub with
      | [] => (.ok (ctx, false), st)
      | _ :: _ =>
        let len := st.queue.length
        match interpretTree it fuel sub ctx (pushCmd (.WriteStr d.left) st) with
        | (.ok (_, true), st2) => (.ok (ctx, true), writeOut d.right st2)
        | (.ok (_, false), st2) => (.ok (ctx, false), { st2 with queue := st2.queue.take len })
        | (.error er, st2) => (.error er, st2)
    | .Literal lit => (.ok (ctx, true), writeOut lit (writeQueue it.bash_prompt st))
    | .Format style sub => interpretFormat it fuel style sub ctx st
    | .Separator _ => (.error .panicked, st)
termination_by structural fuel _ _ _ => fuel

/-- `Interpreter::interpret_tree`: enter the element loop with
`wrote = false` and `separator_count = 0`. -/
def interpretTree (it : Interpreter) : Nat → List Expression → CompleteStyle → IState →
    Except InterpreterErr (CompleteStyle × Bool) × IState
  | 0, _, _, st => (.error .fuelOut, st)
  | fuel+1, es, ctx, st => interpretTreeLoop it fuel es ctx false 0 st
termination_by structural fuel _ _ _ => fuel

/-- The `for e in &exps.0` loop of `interpret_tree`, carrying `wrote` and
`separator_count`.  On a separator: queued (and counted) only if something
has been written at this level.  On any other element: interpret it; when
it wrote nothing, `drain_queue(separator_count)` and reset the count — when
it wrote, the count is *not* reset (this mirrors the Rust exactly).  After
the loop the still-pending separators are drained. -/
def interpretTreeLoop (it : Interpreter) : Nat → List Expression → CompleteStyle →
    Bool → Nat → IState → Except InterpreterErr (CompleteStyle × Bool) × IState
  | 0, _, _, _, _, st => (.error .fuelOut, st)
  | _fuel+1, [], ctx, wrote, sepCount, st =>
    (match drainQueue sepCount st with
     | .ok st1 => (.ok (ctx, wrote), st1)
     | .error er => (.error er, st))
  | fuel+1, e :: es, ctx, wrote, sepCount, st =>
    match e with
    | .Separator s =>
      if wrote then
        interpretTreeLoop it fuel es ctx wrote (sepCount + 1) (pushCmd (.WriteStr s.asStr) st)
      else
        interpretTreeLoop it fuel es ctx wrote sepCount st
    | _ =>
      match interpret it fuel e ctx st with
      | (.ok (_, wroteNow), st1) =>
        if wroteNow then
          interpretTreeLoop it fuel es ctx true sepCount st1
        else
          match drainQueue sepCount st1 with
          | .ok st2 => interpretTreeLoop it fuel es ctx wrote 0 st2
          | .error er => (.error er, st1)
      | (.error er, st1) => (.error er, st1)
termination_by structural fuel _ _ _ _ _ => fuel

/-- `Interpreter::interpret_named`: one `optional_prefix` call per stat
field, and `interpret_literal` for `Quote`. -/
def interpretNamed (it : Interpreter) : Nat → Name → List Expression → CompleteStyle →
    IState → Except InterpreterErr (CompleteStyle × Bool) × IState
  | 0, _, _, _, st => (.error .fuelOut, st)
  | fuel+1, name, sub, ctx, st =>
    match name with
    | .Branch => prefixedValue it fuel sub (.str it.stats.branch) "" ctx st
    | .Remote => prefixedValue it fuel sub (.str it.stats.remote) "" ctx st
    | .Ahead => prefixedValue it fuel sub (.nat it.stats.ahead) "+" ctx st
    | .Behind => prefixedValue it fuel sub (.nat it.stats.behind) "-" ctx st
    | .Conflict => prefixedValue it fuel sub (.nat it.stats.conflicts) "U" ctx st
    | .Added => prefixedValue it fuel sub (.nat it.stats.added_staged) "A" ctx st
    | .Untracked => prefixedValue it fuel sub (.nat it.stats.untracked) "?" ctx st
    | .Modified => prefixedValue it fuel sub (.nat it.stats.modified_staged) "M" ctx st
    | .Unstaged => prefixedValue it fuel sub (.nat it.stats.modified) "M" ctx st
    | .Deleted => prefixedValue it fuel sub (.nat it.stats.deleted) "D" ctx st
    | .DeletedStaged => prefixedValue it fuel sub (.nat it.stats.deleted_staged) "D" ctx st
    | .Renamed => prefixedValue it fuel sub (.nat it.stats.renamed) "R" ctx st
    | .Stashed => prefixedValue it fuel sub (.nat it.stats.stashes) "H" ctx st
    | .Quote => interpretQuoteLiteral sub "\x27" ctx st
termination_by structural fuel _ _ _ _ => fuel

/-- `Interpreter::optional_prefix`: empty value → `wrote = false` at once
with no side effect; otherwise flush the queue, then write `prefix ++ val`
when `sub` is empty, or evaluate `sub` and write `val` alone when the
sub-tree wrote (the sub-tree replaced the default prefix), or
`prefix ++ val` when it wrote nothing. -/
def prefixedValue (it : Interpreter) : Nat → List Expression → Val → String →
    CompleteStyle → IState → Except InterpreterErr (CompleteStyle × Bool) × IState
  | 0, _, _, _, _, st => (.error .fuelOut, st)
  | fuel+1, sub, val, pfx, ctx, st =>
    if val.isEmpty then (.ok (ctx, false), st)
    else
      let st1 := writeQueue it.bash_prompt st
      match sub with
      | [] => (.ok (ctx, true), writeOut (pfx ++ val.render) st1)
      | _ :: _ =>
        match interpretTree it fuel sub ctx st1 with
        | (.ok (_, true), st2) => (.ok (ctx, true), writeOut val.render st2)
        | (.ok (_, false), st2) => (.ok (ctx, true), writeOut (pfx ++ val.render) st2)
        | (.error er, st2) => (.error er, st2)
termination_by structural fuel _ _ _ _ _ => fuel

/-- `Interpreter::interpret_format`: fold the style into the context, push
the `WriteContext` marker, evaluate `sub` under the new context; if it
wrote, write `prev.write_difference(w, &context)` (the closing transition
from the new context back to the ambient one) directly to the sink; if it
wrote nothing, pop the queue back to its entry length. -/
def interpretFormat (it : Interpreter) : Nat → CompleteStyle → List Expression →
    CompleteStyle → IState → Except InterpreterErr (CompleteStyle × Bool) × IState
  | 0, _, _, _, st => (.error .fuelOut, st)
  | fuel+1, style, sub, ctx, st =>
    let len := st.queue.length
    let context := CompleteStyle.addAssign ctx style
    match interpretTree it fuel sub context (pushCmd (.WriteContext context) st) with
    | (.ok (_, true), st2) =>
      (.ok (context, true),
        writeOut (CompleteStyle.writeDifference ctx context it.bash_prompt) st2)
    | (.ok (_, false), st2) => (.ok (context, false), { st2 with queue := st2.queue.take len })
    | (.error er, st2) => (.error er, st2)
termination_by structural fuel _ _ _ _ => fuel

end

mutual

/-- Syntactic size of an expression (an executable stand-in for `sizeOf`,
used only to pick ample interpreter fuel). -/
def Expression.esize : Expression → Nat
  | .Named _ sub => 2 + esizeList sub
  | .Format _ sub => 2 + esizeList sub
  | .Group _ sub => 2 + esizeList sub
  | .Literal _ => 1
  | .Separator _ => 1

/-- Syntactic size of an expression list. -/
def esizeList : List Expression → Nat
  | [] => 1
  | e :: es => 1 + Expression.esize e + esizeList es

end

/-- Ample fuel for a toplevel run over `exps`: every recursive step of the
interpreter either descends into the tree or advances along a list, and at
most five fuel units are spent per node. -/
def treeFuel (exps : List Expression) : Nat := 3 * esizeList exps + 3

/-- `Interpreter::evaluate`: queue a leading full reset when colour is
allowed, interpret the tree under the default context, append a trailing
reset when something was written and colour is allowed, then clear the
queue.  On the error path the Rust `?` operator returns *before* the
`self.command_queue.clear()` statement, so the queue is left as it was —
the embedding mirrors that. -/
def evaluate (it : Interpreter) (exps : List Expression) (st : IState) :
    Except InterpreterErr Unit × IState :=
  let st1 :=
    if it.allow_color then
      if it.bash_prompt then pushCmd (.WriteStr "\x01\x1B[0m\x02") st
      else pushCmd (.WriteStr "\x1B[0m") st
    else st
  match interpretTree it (treeFuel exps) exps CompleteStyle.cdefault st1 with
  | (.ok (_, wrote), st2) =>
    let st3 :=
      if wrote && it.allow_color then
        if it.bash_prompt then writeOut "\x01\x1B[0m\x02" st2
        else writeOut "\x1B[0m" st2
      else st2
    (.ok (), { st3 with queue := [] })
  | (.error er, st2) => (.error er, st2)

/-- The per-`Name` stat value of `interpret_named`'s table (the value whose
emptiness decides elision).  `Quote` takes no stat; the `.nat 1` there is a
placeholder never used by the theorems (they all assume `name ≠ Quote`). -/
def nameVal (st : Stats) : Name → Val
  | .Branch => .str st.branch
  | .Remote => .str st.remote
  | .Ahead => .nat st.ahead
  | .Behind => .nat st.behind
  | .Conflict => .nat st.conflicts
  | .Added => .nat st.added_staged
  | .Untracked => .nat st.untracked
  | .Modified => .nat st.modified_staged
  | .Unstaged => .nat st.modified
  | .Deleted => .nat st.deleted
  | .DeletedStaged => .nat st.deleted_staged
  | .Renamed => .nat st.renamed
  | .Stashed => .nat st.stashes
  | .Quote => .nat 1

/-! ## Claim C2 -/

/-- C2: `interpret_tree` does *not* reset `separator_count` when an element
returns `wrote = true` (the reset happens only in the `!wrote_now` branch),
so after `'x' 'y'` the count is still 1 with an empty queue, and the
following elided `Named(Ahead)` calls `drain_queue(1)`: the `usize`
subtraction `len - 1 = 0 - 1` underflows — a panic in a debug build
(modelled as `panicked`; a release build wraps and silently keeps stray
separators).  The claim's invariant "after any element that wrote, the
pending separator count is 0" is what the code fails to maintain. -/
theorem C2_separator_count_underflow :
    evaluate ⟨Stats.zero, false, false⟩
      [.Literal "x", .Separator .Space, .Literal "y", .Named .Ahead []]
      IState.empty
      = (.error .panicked, ⟨[], "x y"⟩) := rfl

/-! ## Claim C3 -/

/-- C3: `evaluate` clears the queue with a final
`self.command_queue.clear()` statement, which the `?` on `interpret_tree`
skips: when the tree raises an `InterpreterErr` (here `UnexpectedArgs`,
from `Quote` given arguments) with colour enabled, the leading queued
reset is still in the queue on exit — the queue is *not* empty on the
error path. -/
theorem C3_queue_not_cleared_on_error :
    evaluate ⟨Stats.zero, true, false⟩ [.Named .Quote [.Literal "x"]] IState.empty
      = (.error (.UnexpectedArgs (.Named .Quote [.Literal "x"])),
         ⟨[.WriteStr "\x1B[0m"], ""⟩)
    ∧ ([WriteCommand.WriteStr "\x1B[0m"] : List WriteCommand) ≠ [] :=
  ⟨rfl, by simp⟩

/-! ## Claim C4 -/

/-- C4 counterexample: with ambient `style_ctx = default` and
`style = {bold}` (so `new_ctx = {bold}`), the sub-tree `['x']` writes, and
the interpreter then writes `"\x1B[0m\x1B[0m"` — the rendering of
`difference(new_ctx, style_ctx)` (a Reset, followed by re-applying the
ambient default) — not the claim's `difference(style_ctx, new_ctx)`, whose
rendering is the single bold escape `"\x1B[1m"`. -/
theorem C4_counterexample :
    interpretFormat ⟨Stats.zero, true, false⟩ 9
        ⟨none, none, true, false, false⟩ [.Literal "x"] CompleteStyle.cdefault IState.empty
      = (.ok (⟨none, none, true, false, false⟩, true), ⟨[], "\x1B[1mx\x1B[0m\x1B[0m"⟩)
    ∧ "\x1B[1mx"
        ++ CompleteStyle.writeDifference ⟨none, none, true, false, false⟩
            CompleteStyle.cdefault false
      ≠ "\x1B[1mx\x1B[0m\x1B[0m" :=
  ⟨rfl, by decide⟩

/-- C4 (amended): when the sub-tree of `Format{style, sub}` writes under
`new_ctx = style_ctx + style`, the interpreter writes to the sink exactly
the transition `difference(new_ctx, style_ctx)` — the closing transition
from the new context back to the ambient style, rendered by
`write_difference` with target `style_ctx` — and returns `wrote = true`. -/
theorem C4_format_closing_transition (it : Interpreter) (fuel : Nat)
    (style : CompleteStyle) (sub : List Expression) (ctx : CompleteStyle)
    (st st2 : IState) (c : CompleteStyle)
    (h : interpretTree it fuel sub (CompleteStyle.addAssign ctx style)
        (pushCmd (.WriteContext (CompleteStyle.addAssign ctx style)) st)
      = (.ok (c, true), st2)) :
    interpretFormat it (fuel + 1) style sub ctx st
      = (.ok (CompleteStyle.addAssign ctx style, true),
         writeOut
           (CompleteStyle.writeDifference ctx (CompleteStyle.addAssign ctx style)
             it.bash_prompt)
           st2) := by
  simp only [interpretFormat, h]

/-- Witness for the amended C4 theorem at the counterexample's input. -/
theorem C4_format_closing_transition_witness :
    interpretFormat ⟨Stats.zero, true, false⟩ 9
        ⟨none, none, true, false, false⟩ [.Literal "x"] CompleteStyle.cdefault IState.empty
      = (.ok (⟨none, none, true, false, false⟩, true),
         writeOut
           (CompleteStyle.writeDifference CompleteStyle.cdefault
             ⟨none, none, true, false, false⟩ false)
           ⟨[], "\x1B[1mx"⟩) :=
  C4_format_closing_transition ⟨Stats.zero, true, false⟩ 8
    ⟨none, none, true, false, false⟩ [.Literal "x"] CompleteStyle.cdefault
    IState.empty ⟨[], "\x1B[1mx"⟩ ⟨none, none, true, false, false⟩ rfl

/-! ## Claim C6 -/

/-- C6: empty-stats emptiness.  (i) For every `Name` other than `Quote`,
evaluating `Named{name, sub: empty}` against all-zero/empty stats writes
zero bytes, for every flag combination.  (ii) In general, whenever the
looked-up stat value is empty, `interpret_named` returns `wrote = false`
immediately, with no write and no queueing, regardless of `sub`. -/
theorem C6_empty_stats_empty_output :
    (∀ name, name ≠ Name.Quote → ∀ ac bp,
      evaluate ⟨Stats.zero, ac, bp⟩ [.Named name []] IState.empty = (.ok (), ⟨[], ""⟩))
    ∧ (∀ stats name, name ≠ Name.Quote → (nameVal stats name).isEmpty = true →
        ∀ ac bp fuel sub ctx st,
        interpretNamed ⟨stats, ac, bp⟩ (fuel + 2) name sub ctx st = (.ok (ctx, false), st)) := by
  constructor
  · intro name h ac bp
    cases name <;> first
      | exact absurd rfl h
      | (cases ac <;> cases bp <;> rfl)
  · intro stats name h hempty ac bp fuel sub ctx st
    cases name <;> simp_all [interpretNamed, prefixedValue, nameVal]

/-- Witness for C6 at `Ahead` with zero stats. -/
theorem C6_empty_stats_witness :
    evaluate ⟨Stats.zero, false, false⟩ [.Named .Ahead []] IState.empty = (.ok (), ⟨[], ""⟩)
    ∧ interpretNamed ⟨Stats.zero, false, false⟩ 2 .Ahead [.Literal "p"]
        CompleteStyle.cdefault IState.empty = (.ok (CompleteStyle.cdefault, false), IState.empty) :=
  ⟨C6_empty_stats_empty_output.1 .Ahead (by decide) false false,
   C6_empty_stats_empty_output.2 Stats.zero .Ahead (by decide) (by decide)
     false false 0 [.Literal "p"] CompleteStyle.cdefault IState.empty⟩

/-! ## Claim C7 -/

/-- C7: prefix override.  `Named{Ahead, sub: ['↑']}` against `ahead = 3`
(colour disabled) writes exactly `"↑3"`; the same against `ahead = 0`
writes nothing; `Named{Ahead, sub: empty}` against `ahead = 3` writes the
default-prefix form `"+3"`. -/
theorem C7_prefix_override :
    evaluate ⟨{ Stats.zero with ahead := 3 }, false, false⟩
        [.Named .Ahead [.Literal "↑"]] IState.empty = (.ok (), ⟨[], "↑3"⟩)
    ∧ evaluate ⟨{ Stats.zero with ahead := 0 }, false, false⟩
        [.Named .Ahead [.Literal "↑"]] IState.empty = (.ok (), ⟨[], ""⟩)
    ∧ evaluate ⟨{ Stats.zero with ahead := 3 }, false, false⟩
        [.Named .Ahead []] IState.empty = (.ok (), ⟨[], "+3"⟩) :=
  ⟨rfl, rfl, rfl⟩

/-! ## Parser (src/lib/parser.rs and src/lib/parser/combinator.rs)

The nom 5 parser is embedded over `List Char`.  `PFail.err` models
`nom::Err::Error` (recoverable: `alt` tries the next branch, `opt` and the
`many0` loops stop), `PFail.fail` models `nom::Err::Failure` (aborts), and
`PFail.panic` models the `expect` panic inside `u8_from_bytes`.
`Incomplete` never arises (every parser used is complete).  The mutually
recursive grammar functions take a fuel parameter decremented on each call;
`NomKind.fuel` marks exhaustion, which the fuel `parse` supplies can never
reach (the grammar consumes at least one character per four fuel units). -/

abbrev Input := List Char

/-- nom `error::ErrorKind` (only the kinds this parser can produce), plus
the embedding's `fuel` sentinel. -/
inductive NomKind where
  | Many0 | Many1 | Eof | Tag | TakeUntil | TakeWhile1 | fuel
deriving DecidableEq, Repr

/-- `parser.rs` `ParseErrorKind`. -/
inductive ParseErrorKind where
  | UnclosedString
  | MissingDelimiter (c : Char)
  | MissingChar (c : Char)
  | UnrecognizedName
  | UnrecognizedStyle
  | InvalidRGB
  | Other (k : NomKind)
deriving DecidableEq, Repr

/-- `parser.rs` `ParseError`: the failing suffix with its classified kind,
plus the `context` and `top` diagnostic slices. -/
structure ParseError where
  error : Input × ParseErrorKind
  context : Option (Input × String)
  top : Option (Input × String)
deriving DecidableEq, Repr

/-- `impl error::ParseError<&str> for ParseError`: `from_error_kind`. -/
def ParseError.fromErrorKind (i : Input) (k : NomKind) : ParseError :=
  ⟨(i, .Other k), none, none⟩

/-- `from_char`. -/
def ParseError.fromChar (i : Input) (c : Char) : ParseError :=
  ⟨(i, .MissingChar c), none, none⟩

/-- `add_context` (also `append` keeps the inner error unchanged). -/
def ParseError.addContext (i : Input) (c : String) (e : ParseError) : ParseError :=
  { e with context := e.context.or (some (i, c)), top := some (i, c) }

/-- `ParseError::missing_delimiter`. -/
def ParseError.missingDelimiter (i : Input) (e : ParseError) (d : Char) : ParseError :=
  { e with error := (i, .MissingDelimiter d) }

/-- `ParseError::missing_name`. -/
def ParseError.missingName (i : Input) (e : ParseError) : ParseError :=
  { e with error := (i, .UnrecognizedName) }

/-- `ParseError::missing_style`. -/
def ParseError.missingStyle (i : Input) (e : ParseError) : ParseError :=
  { e with error := (i, .UnrecognizedStyle) }

/-- `ParseError::char_to_delimiter`. -/
def ParseError.charToDelimiter (i : Input) (e : ParseError) : ParseError :=
  match e.error.2 with
  | .MissingChar c => { e with error := (i, .MissingDelimiter c) }
  | _ => e

/-- `ParseError::invalid_rgb`. -/
def ParseError.invalidRGB (i : Input) (e : ParseError) : ParseError :=
  { e with error := (i, .InvalidRGB) }

/-- nom `Err`: recoverable `Error`, aborting `Failure`, or a Rust panic. -/
inductive PFail where
  | err (e : ParseError)
  | fail (e : ParseError)
  | panic
deriving DecidableEq, Repr

/-- `IResult<&str, A, ParseError>`. -/
abbrev PResult (α : Type) := Except PFail (Input × α)

/-- `nom::character::complete::char(c)`. -/
def charP (c : Char) : Input → PResult Char
  | x :: rest =>
    if x = c then .ok (rest, x) else .error (.err (ParseError.fromChar (x :: rest) c))
  | [] => .error (.err (ParseError.fromChar [] c))

/-- `nom::bytes::complete::tag(t)`. -/
def tagP (t : List Char) (i : Input) : PResult (List Char) :=
  if t.isPrefixOf i then .ok (i.drop t.length, t)
  else .error (.err (ParseError.fromErrorKind i .Tag))

/-- combinator.rs `map_err`: apply `m` to the error of either severity,
keeping the severity. -/
def mapErrP (f : Input → PResult α) (m : Input → ParseError → ParseError)
    (i : Input) : PResult α :=
  match f i with
  | .ok o => .ok o
  | .error (.fail e) => .error (.fail (m i e))
  | .error (.err e) => .error (.err (m i e))
  | .error .panic => .error .panic

/-- combinator.rs `map_fail`: `map_err`, with `Error` promoted to
`Failure`. -/
def mapFailP (f : Input → PResult α) (m : Input → ParseError → ParseError)
    (i : Input) : PResult α :=
  match mapErrP f m i with
  | .error (.err e) => .error (.fail e)
  | r => r

/-- `nom::combinator::map`. -/
def mapP (f : Input → PResult α) (g : α → β) (i : Input) : PResult β :=
  match f i with
  | .ok (i1, a) => .ok (i1, g a)
  | .error e => .error e

/-- `nom::branch::alt` over a list of alternatives: `Error` falls through,
anything else is returned; when every alternative errors, the last error is
kept (this `ParseError`'s `append` returns the inner error unchanged). -/
def altP : List (Input → PResult α) → Input → PResult α
  | [], i => .error (.err (ParseError.fromErrorKind i .Tag))
  | [p], i => p i
  | p :: q :: ps, i =>
    match p i with
    | .error (.err _) => altP (q :: ps) i
    | r => r

/-- `nom::sequence::terminated`. -/
def terminatedP (f : Input → PResult α) (g : Input → PResult β) (i : Input) :
    PResult α :=
  match f i with
  | .ok (i1, a) =>
    (match g i1 with
     | .ok (i2, _) => .ok (i2, a)
     | .error e => .error e)
  | .error e => .error e

/-- `nom::bytes::complete::take_until("'")`, specialised to a one-character
target: split the input at the first occurrence. -/
def splitAtChar (c : Char) : Input → Option (List Char × Input)
  | [] => none
  | x :: rest =>
    if x = c then some ([], x :: rest)
    else
      match splitAtChar c rest with
      | some (pre, post) => some (x :: pre, post)
      | none => none

/-- `take_until` proper: the prefix before the first occurrence, error kind
`TakeUntil` when the target is absent. -/
def takeUntilP (c : Char) (i : Input) : PResult (List Char) :=
  match splitAtChar c i with
  | some (pre, post) => .ok (post, pre)
  | none => .error (.err (ParseError.fromErrorKind i .TakeUntil))

/-- `nom::bytes::complete::take_while1`. -/
def takeWhile1P (p : Char → Bool) (i : Input) : PResult (List Char) :=
  match i.takeWhile p with
  | [] => .error (.err (ParseError.fromErrorKind i .TakeWhile1))
  | x :: xs => .ok (i.dropWhile p, x :: xs)

/-- Rust `nom::character::is_digit(c as u8)`: the char is truncated to its
low byte before the ASCII-digit test. -/
def isDigitByte (c : Char) : Bool :=
  48 ≤ c.toNat % 256 && c.toNat % 256 ≤ 57

/-- A genuine ASCII digit (what `str::parse::<u8>` accepts). -/
def isAsciiDigit (c : Char) : Bool := '0' ≤ c && c ≤ '9'

/-- Decimal value of a digit string. -/
def digitsToNat (s : List Char) : Nat :=
  s.foldl (fun a c => a * 10 + (c.toNat - 48)) 0

/-- `u8_from_bytes`: `input.parse::<u8>()` followed by `expect` — `none`
models the panic (a non-ASCII pseudo-digit admitted by `is_digit`'s byte
truncation, or a value above `u8::MAX`). -/
def u8FromBytes (s : List Char) : Option Nat :=
  if s.all isAsciiDigit && !s.isEmpty then
    if digitsToNat s ≤ 255 then some (digitsToNat s) else none
  else none

/-- `digit`: `take_while1(is_digit)` through `u8_from_bytes`. -/
def digitP (i : Input) : PResult Nat :=
  match takeWhile1P isDigitByte i with
  | .ok (i1, ds) =>
    (match u8FromBytes ds with
     | some v => .ok (i1, v)
     | none => .error .panic)
  | .error f => .error f

/-- `u8_triple`: `digit , digit , digit`. -/
def u8TripleP (i : Input) : PResult (Nat × Nat × Nat) :=
  match terminatedP digitP (charP ',') i with
  | .ok (i1, a) =>
    (match terminatedP digitP (charP ',') i1 with
     | .ok (i2, b) =>
       (match digitP i2 with
        | .ok (i3, c) => .ok (i3, (a, b, c))
        | .error f => .error f)
     | .error f => .error f)
  | .error f => .error f

/-- `style_token`'s `fg_rgb`: `'[' u8_triple ']'` (triple failures become
`InvalidRGB`, a missing `]` becomes `MissingDelimiter`); `complete` is the
identity here since `Incomplete` cannot arise. -/
def fgRgbP (i : Input) : PResult Style :=
  match charP '[' i with
  | .ok (i1, _) =>
    (match mapFailP u8TripleP (fun j e => ParseError.invalidRGB j e) i1 with
     | .ok (i2, (r, g, b)) =>
       (match mapFailP (charP ']') (fun j e => ParseError.charToDelimiter j e) i2 with
        | .ok (i3, _) => .ok (i3, Style.Fg (.RGB r g b))
        | .error f => .error f)
     | .error f => .error f)
  | .error f => .error f

/-- `style_token`'s `bg_rgb`. -/
def bgRgbP (i : Input) : PResult Style :=
  match charP '\x7b' i with
  | .ok (i1, _) =>
    (match mapFailP u8TripleP (fun j e => ParseError.invalidRGB j e) i1 with
     | .ok (i2, (r, g, b)) =>
       (match mapFailP (charP '\x7d') (fun j e => ParseError.charToDelimiter j e) i2 with
        | .ok (i3, _) => .ok (i3, Style.Bg (.RGB r g b))
        | .error f => .error f)
     | .error f => .error f)
  | .error f => .error f

/-- The twenty fixed one-character style tags of `style_token`, in source
order. -/
def fixedStylesP : Input → PResult Style :=
  altP
    [ mapP (charP '~') (fun _ => Style.Reset)
    , mapP (charP '*') (fun _ => Style.Bold)
    , mapP (charP '_') (fun _ => Style.Underline)
    , mapP (charP 'i') (fun _ => Style.Italic)
    , mapP (charP 'r') (fun _ => Style.Fg .Red)
    , mapP (charP 'R') (fun _ => Style.Bg .Red)
    , mapP (charP 'g') (fun _ => Style.Fg .Green)
    , mapP (charP 'G') (fun _ => Style.Bg .Green)
    , mapP (charP 'y') (fun _ => Style.Fg .Yellow)
    , mapP (charP 'Y') (fun _ => Style.Bg .Yellow)
    , mapP (charP 'b') (fun _ => Style.Fg .Blue)
    , mapP (charP 'B') (fun _ => Style.Bg .Blue)
    , mapP (charP 'm') (fun _ => Style.Fg .Magenta)
    , mapP (charP 'M') (fun _ => Style.Bg .Magenta)
    , mapP (charP 'c') (fun _ => Style.Fg .Cyan)
    , mapP (charP 'C') (fun _ => Style.Bg .Cyan)
    , mapP (charP 'w') (fun _ => Style.Fg .White)
    , mapP (charP 'W') (fun _ => Style.Bg .White)
    , mapP (charP 'k') (fun _ => Style.Fg .Black)
    , mapP (charP 'K') (fun _ => Style.Bg .Black)
    ]

/-- `style_token`: `alt((fg_rgb, bg_rgb, map_err(styles, missing_style)))`. -/
def styleTokenP : Input → PResult Style :=
  altP
    [ fgRgbP
    , bgRgbP
    , mapErrP fixedStylesP (fun j e => ParseError.missingStyle j e)
    ]

/-- The inner loop of nom's `fold_many1(style_token, default, add)`,
fuelled by the input length (each successful token consumes at least one
character, so `length + 1` is never exhausted). -/
def styleFoldLoop : Nat → CompleteStyle → Input → PResult CompleteStyle
  | 0, _, i => .error (.fail (ParseError.fromErrorKind i .fuel))
  | n + 1, acc, i =>
    match styleTokenP i with
    | .error (.err _) => .ok (i, acc)
    | .error f => .error f
    | .ok (i1, s) =>
      if i1 = i then .error (.err (ParseError.fromErrorKind i1 .Many1))
      else styleFoldLoop n (acc.add s) i1

/-- `fold_many1(style_token, CompleteStyle::default(), add)`: a first-token
`Error` becomes `Error(Many1)`; afterwards tokens are folded until one
errors. -/
def foldMany1Styles (i : Input) : PResult CompleteStyle :=
  match styleTokenP i with
  | .error (.err _) => .error (.err (ParseError.fromErrorKind i .Many1))
  | .error f => .error f
  | .ok (i1, s) => styleFoldLoop (i1.length + 1) (CompleteStyle.cdefault.add s) i1

/-- The fix-up closure `format_expression` applies with `map_fail` to the
folded style tokens: a bare nom kind becomes `UnrecognizedStyle`. -/
def styleFix (i : Input) (e : ParseError) : ParseError :=
  match e.error.2 with
  | .Other _ => ParseError.missingStyle i e
  | _ => e

/-- The `name` sub-parsers of `named_expression`, in source order. -/
def nameTokenP : Input → PResult Name :=
  altP
    [ mapP (charP 'h') (fun _ => Name.Stashed)
    , mapP (charP 'b') (fun _ => Name.Branch)
    , mapP (charP 'B') (fun _ => Name.Remote)
    , mapP (charP '+') (fun _ => Name.Ahead)
    , mapP (charP '-') (fun _ => Name.Behind)
    , mapP (charP 'u') (fun _ => Name.Conflict)
    , mapP (charP 'A') (fun _ => Name.Added)
    , mapP (charP 'a') (fun _ => Name.Untracked)
    , mapP (charP 'M') (fun _ => Name.Modified)
    , mapP (charP 'm') (fun _ => Name.Unstaged)
    , mapP (charP 'd') (fun _ => Name.Deleted)
    , mapP (charP 'D') (fun _ => Name.DeletedStaged)
    , mapP (charP 'R') (fun _ => Name.Renamed)
    , mapP (tagP ['\\', '\'']) (fun _ => Name.Quote)
    ]

/-- `literal_expression`: `'` then `take_until("'")` (failure re-kinded to
`UnclosedString`) then `'`. -/
def literalExpressionP (i : Input) : PResult Expression :=
  match charP '\'' i with
  | .ok (i1, _) =>
    (match mapFailP (takeUntilP '\'')
        (fun j e => { e with error := (j, ParseErrorKind.UnclosedString) }) i1 with
     | .ok (i2, content) =>
       (match charP '\'' i2 with
        | .ok (i3, _) => .ok (i3, Expression.Literal (String.mk content))
        | .error f => .error f)
     | .error f => .error f)
  | .error f => .error f

/-- `separator_expression`: longest (here: only) match among the eight
fixed glyphs, in source order. -/
def separatorExpressionP : Input → PResult Expression :=
  mapP
    (altP
      [ mapP (tagP ['@']) (fun _ => Separator.At)
      , mapP (tagP ['|']) (fun _ => Separator.Bar)
      , mapP (tagP ['.']) (fun _ => Separator.Dot)
      , mapP (tagP [',']) (fun _ => Separator.Comma)
      , mapP (tagP [' ']) (fun _ => Separator.Space)
      , mapP (tagP [':']) (fun _ => Separator.Colon)
      , mapP (tagP [';']) (fun _ => Separator.Semicolon)
      , mapP (tagP ['_']) (fun _ => Separator.Underscore)
      ])
    Expression.Separator

/-- `context(name, ...)`: record the grammar rule on an error of either
severity. -/
def withContext (c : String) (i : Input) : PResult α → PResult α
  | .ok o => .ok o
  | .error (.err e) => .error (.err (ParseError.addContext i c e))
  | .error (.fail e) => .error (.fail (ParseError.addContext i c e))
  | .error .panic => .error .panic

/-- The `right` delimiter parser of one `group!` arm: `map_err(char(r),
|_, e| char_to_delimiter(input, e))` with `input` the group's whole
input. -/
def groupRight (i0 : Input) (rc : Char) : Input → PResult Char :=
  mapErrP (charP rc) (fun _ e => ParseError.charToDelimiter i0 e)

/-- The `right` parser of `sub_tree`: `map_err(char(')'), |_, e|
missing_delimiter(input, e, ')'))` with `input` the sub-tree's whole
input. -/
def subTreeRight (i0 : Input) : Input → PResult Char :=
  mapErrP (charP ')') (fun _ e => ParseError.missingDelimiter i0 e ')')

mutual

/-- `expression`: `alt((context("group", group), context("string",
literal), context("format", format), separator, named))` written as the
explicit fall-through that nom's `alt` performs (`Error` tries the next
branch, the last branch's error is kept). -/
def expressionP : Nat → Input → PResult Expression
  | 0, i => .error (.fail (ParseError.fromErrorKind i .fuel))
  | fuel + 1, i =>
    match withContext "group" i (groupExpressionP fuel i) with
    | .error (.err _) =>
      (match withContext "string" i (literalExpressionP i) with
       | .error (.err _) =>
         (match withContext "format" i (formatExpressionP fuel i) with
          | .error (.err _) =>
            (match separatorExpressionP i with
             | .error (.err _) => namedExpressionP fuel i
             | r => r)
          | r => r)
       | r => r)
    | r => r
termination_by structural fuel _ => fuel

/-- `group_expression`: the four `group!` arms in source order, each a
`delimited_many0(tag(l), expression, map_err(char(r), ...))` mapped to a
`Group`. -/
def groupExpressionP : Nat → Input → PResult Expression
  | 0, i => .error (.fail (ParseError.fromErrorKind i .fuel))
  | fuel + 1, i =>
    match tagP ['<'] i with
    | .ok (i1, _) =>
      (match delimLoopP fuel (groupRight i '>') i1 i1 with
       | .ok (i2, sub) => .ok (i2, Expression.Group .Angle sub)
       | .error f => .error f)
    | .error (.err _) =>
      match tagP ['['] i with
      | .ok (i1, _) =>
        (match delimLoopP fuel (groupRight i ']') i1 i1 with
         | .ok (i2, sub) => .ok (i2, Expression.Group .Square sub)
         | .error f => .error f)
      | .error (.err _) =>
        match tagP ['\x7b'] i with
        | .ok (i1, _) =>
          (match delimLoopP fuel (groupRight i '\x7d') i1 i1 with
           | .ok (i2, sub) => .ok (i2, Expression.Group .Curly sub)
           | .error f => .error f)
        | .error (.err _) =>
          (match tagP ['\\', '('] i with
           | .ok (i1, _) =>
             (match delimLoopP fuel (groupRight i ')') i1 i1 with
              | .ok (i2, sub) => .ok (i2, Expression.Group .Parens sub)
              | .error f => .error f)
           | .error f => .error f)
        | .error f => .error f
      | .error f => .error f
    | .error f => .error f
termination_by structural fuel _ => fuel

/-- The loop of combinator.rs `delimited_many0` after `left` has been
consumed: collect expressions until one errors, then require `right`; if
`right` also errors, the whole parse fails — `MissingDelimiter` at the end
of input, otherwise the item's error with an `"expression"` context.
`inp0` is the input just after `left` (used for `add_context`). -/
def delimLoopP : Nat → (Input → PResult Char) → Input → Input →
    PResult (List Expression)
  | 0, _, _, i => .error (.fail (ParseError.fromErrorKind i .fuel))
  | fuel + 1, right, inp0, i =>
    match expressionP fuel i with
    | .error (.err e) =>
      (match right i with
       | .ok (i2, _) => .ok (i2, [])
       | .error (.err e2) =>
         if i.length = 0 then .error (.fail e2)
         else .error (.fail (ParseError.addContext inp0 "expression" e))
       | .error f => .error f)
    | .error f => .error f
    | .ok (i1, o) =>
      if i1 = i then .error (.err (ParseError.fromErrorKind i .Many0))
      else
        match delimLoopP fuel right inp0 i1 with
        | .ok (i2, os) => .ok (i2, o :: os)
        | .error f => .error f
termination_by structural fuel _ _ _ => fuel

/-- `sub_tree`: `delimited_many0(char('('), expression,
map_err(char(')'), ...))` mapped through `Tree`. -/
def subTreeP : Nat → Input → PResult (List Expression)
  | 0, i => .error (.fail (ParseError.fromErrorKind i .fuel))
  | fuel + 1, i =>
    match charP '(' i with
    | .ok (i1, _) => delimLoopP fuel (subTreeRight i) i1 i1
    | .error f => .error f
termination_by structural fuel _ => fuel

/-- `named_expression`: a name token (errors re-kinded `UnrecognizedName`),
then `opt(sub_tree)` whose `Failure` gains an `"expression"` context; a
missing sub-tree is the empty tree. -/
def namedExpressionP : Nat → Input → PResult Expression
  | 0, i => .error (.fail (ParseError.fromErrorKind i .fuel))
  | fuel + 1, i =>
    match mapErrP nameTokenP (fun j e => ParseError.missingName j e) i with
    | .ok (i1, name) =>
      (match subTreeP fuel i1 with
       | .ok (i2, sub) => .ok (i2, Expression.Named name sub)
       | .error (.err _) => .ok (i1, Expression.Named name [])
       | .error (.fail e) =>
         .error (.fail (ParseError.addContext i "expression" e))
       | .error .panic => .error .panic)
    | .error f => .error f
termination_by structural fuel _ => fuel

/-- `format_expression`: `#`, then `fold_many1(style_token, ...)` whose
failure is re-kinded `UnrecognizedStyle` when it carries a bare nom kind
(`map_fail`), then `cut(sub_tree)` (a recoverable sub-tree error becomes a
failure). -/
def formatExpressionP : Nat → Input → PResult Expression
  | 0, i => .error (.fail (ParseError.fromErrorKind i .fuel))
  | fuel + 1, i =>
    match tagP ['#'] i with
    | .ok (i1, _) =>
      (match foldMany1Styles i1 with
       | .ok (i2, style) =>
         (match subTreeP fuel i2 with
          | .ok (i3, sub) => .ok (i3, Expression.Format style sub)
          | .error (.err e) => .error (.fail e)
          | .error f => .error f)
       | .error (.err e) => .error (.fail (styleFix i1 e))
       | .error (.fail e) => .error (.fail (styleFix i1 e))
       | .error .panic => .error .panic)
    | .error f => .error f
termination_by structural fuel _ => fuel

/-- `expression_tree = map(many0(expression), Tree)`: nom's `many0` loop —
stop on a recoverable item error, abort on a failure, and reject items that
consume nothing (`Many0`). -/
def manyExprsP : Nat → Input → PResult (List Expression)
  | 0, i => .error (.fail (ParseError.fromErrorKind i .fuel))
  | fuel + 1, i =>
    match expressionP fuel i with
    | .error (.err _) => .ok (i, [])
    | .error f => .error f
    | .ok (i1, e) =>
      if i1 = i then .error (.err (ParseError.fromErrorKind i .Many0))
      else
        match manyExprsP fuel i1 with
        | .ok (i2, es) => .ok (i2, e :: es)
        | .error f => .error f
termination_by structural fuel _ => fuel

end

/-- Fuel ample for parsing `s`: the grammar functions spend at most four
fuel units per consumed character. -/
def parseFuel (s : Input) : Nat := 4 * s.length + 8

/-- The outcome of `parse`: the tree, the `ParseError` (whether it arrived
as a nom `Error` or `Failure`), or the `u8_from_bytes` panic. -/
inductive ParseResult where
  | Ok (t : List Expression)
  | Err (e : ParseError)
  | panic
deriving Repr

/-- `parse`: `all_consuming(expression_tree)` with both nom error variants
unwrapped to the `ParseError` inside (trailing unconsumed input is an
`Eof` error at the leftover suffix). -/
def parse (s : Input) : ParseResult :=
  match manyExprsP (parseFuel s) s with
  | .ok ([], t) => .Ok t
  | .ok (c :: rest, _) => .Err (ParseError.fromErrorKind (c :: rest) .Eof)
  | .error (.err e) => .Err e
  | .error (.fail e) => .Err e
  | .error .panic => .panic

/-- The classified kind of a parse error, if the parse failed. -/
def parseErrKind : ParseResult → Option ParseErrorKind
  | .Err e => some e.error.2
  | _ => none

/-! ## Claim C9 -/

/-- C9: malformed input diagnostics.  `"["` (opened, never closed) yields
kind `MissingDelimiter(')'`-glyph `']'`); `"#z(x)"` yields
`UnrecognizedStyle`; `"#[1,2](x)"` (two RGB channels) yields
`InvalidRGB`. -/
theorem C9_malformed_input_diagnostics :
    parseErrKind (parse "[".data) = some (.MissingDelimiter ']')
    ∧ parseErrKind (parse "#z(x)".data) = some .UnrecognizedStyle
    ∧ parseErrKind (parse "#[1,2](x)".data) = some .InvalidRGB :=
  ⟨rfl, rfl, rfl⟩

/-! ## Claim C10 -/

/-- C10: the empty string parses to the empty tree, and evaluating the
empty tree against any stats writes zero bytes for every combination of
`allow_color` and `bash_prompt` — the leading queued reset is discarded
(the queue is cleared, not flushed) and no trailing reset is written
because nothing wrote. -/
theorem C10_empty_input_empty_output :
    parse "".data = .Ok []
    ∧ ∀ stats ac bp,
        evaluate ⟨stats, ac, bp⟩ [] IState.empty = (.ok (), ⟨[], ""⟩) := by
  refine ⟨rfl, ?_⟩
  intro stats ac bp
  cases ac <;> cases bp <;> rfl

/-! ## Round-trip development, part 1: canonical trees.

`parse` only ever produces *canonical* trees: literal contents never
contain a quote (they come from `take_until("'")`) and RGB channels never
exceed 255 (`u8_from_bytes` panics above `u8::MAX`).  The round-trip claim
is proved by (a) showing every parsed tree is canonical and (b) showing the
`Display` rendering of a canonical tree re-parses to the identical tree. -/

/-- RGB channels within `u8` range. -/
def Color.rgbOk : Color → Bool
  | .RGB r g b => decide (r ≤ 255) && decide (g ≤ 255) && decide (b ≤ 255)
  | _ => true

/-- Channel bound for a single style token. -/
def Style.rgbOk : Style → Bool
  | .Fg c => c.rgbOk
  | .Bg c => c.rgbOk
  | _ => true

/-- Channel bound for an aggregated style. -/
def CompleteStyle.rgbOk (s : CompleteStyle) : Bool :=
  (match s.fg with | some c => c.rgbOk | none => true)
    && (match s.bg with | some c => c.rgbOk | none => true)

mutual

/-- A tree the parser can produce: quote-free literals, bounded RGB
channels. -/
def Expression.canon : Expression → Bool
  | .Named _ sub => canonList sub
  | .Format style sub => style.rgbOk && canonList sub
  | .Group _ sub => canonList sub
  | .Literal s => !s.data.contains '\''
  | .Separator _ => true

/-- All members canonical. -/
def canonList : List Expression → Bool
  | [] => true
  | e :: es => e.canon && canonList es

end

/-- Unpacking a successful `map`. -/
theorem mapP_ok {α β : Type} {f : Input → PResult α} {g : α → β} {i : Input}
    {i2 : Input} {b : β} (h : mapP f g i = .ok (i2, b)) :
    ∃ a, f i = .ok (i2, a) ∧ b = g a := by
  unfold mapP at h
  split at h
  · rename_i i1 a heq
    simp only [Except.ok.injEq, Prod.mk.injEq] at h
    obtain ⟨h1, h2⟩ := h
    subst h1; subst h2
    exact ⟨a, heq, rfl⟩
  · exact Except.noConfusion h

/-- Unpacking a successful `terminated`. -/
theorem terminatedP_ok {α β : Type} {f : Input → PResult α}
    {g : Input → PResult β} {i i2 : Input} {a : α}
    (h : terminatedP f g i = .ok (i2, a)) :
    ∃ i1 b, f i = .ok (i1, a) ∧ g i1 = .ok (i2, b) := by
  unfold terminatedP at h
  split at h
  · rename_i i1 a1 heq
    split at h
    · rename_i i2' b heq2
      simp only [Except.ok.injEq, Prod.mk.injEq] at h
      obtain ⟨h1, h2⟩ := h
      subst h1; subst h2
      exact ⟨i1, b, heq, heq2⟩
    · exact Except.noConfusion h
  · exact Except.noConfusion h

/-- A successful alternation comes from one of its branches. -/
theorem altP_ok {α : Type} :
    ∀ (ps : List (Input → PResult α)) (i : Input) (o : Input × α),
      altP ps i = .ok o → ∃ p, p ∈ ps ∧ p i = .ok o := by
  intro ps
  induction ps with
  | nil => intro i o h; simp [altP] at h
  | cons p ps ih =>
    intro i o h
    cases ps with
    | nil => exact ⟨p, by simp, h⟩
    | cons q qs =>
      simp only [altP] at h
      cases hp : p i with
      | ok o2 =>
        rw [hp] at h
        have h2 : (Except.ok o2 : PResult α) = Except.ok o := h
        exact ⟨p, by simp, hp.trans h2⟩
      | error f =>
        cases f with
        | err e =>
          rw [hp] at h
          have h2 : altP (q :: qs) i = .ok o := h
          obtain ⟨p2, hmem, hp2⟩ := ih i o h2
          exact ⟨p2, by simp [hmem], hp2⟩
        | fail e =>
          rw [hp] at h
          exact Except.noConfusion (show Except.error (PFail.fail e) = Except.ok o from h)
        | panic =>
          rw [hp] at h
          exact Except.noConfusion (show Except.error PFail.panic = Except.ok o from h)

/-- `u8_from_bytes` never returns a value above 255. -/
theorem u8FromBytes_le {s : List Char} {v : Nat} (h : u8FromBytes s = some v) :
    v ≤ 255 := by
  unfold u8FromBytes at h
  split at h
  · split at h
    · injection h with h1; omega
    · cases h
  · cases h

/-- `digit` never returns a value above 255. -/
theorem digitP_le {i i1 : Input} {v : Nat} (h : digitP i = .ok (i1, v)) :
    v ≤ 255 := by
  unfold digitP at h
  split at h
  · split at h
    · rename_i w heq
      simp only [Except.ok.injEq, Prod.mk.injEq] at h
      exact h.2 ▸ u8FromBytes_le heq
    · exact Except.noConfusion h
  · exact Except.noConfusion h

/-- The three channels of `u8_triple` are bounded. -/
theorem u8TripleP_le {i i3 : Input} {t : Nat × Nat × Nat}
    (h : u8TripleP i = .ok (i3, t)) :
    t.1 ≤ 255 ∧ t.2.1 ≤ 255 ∧ t.2.2 ≤ 255 := by
  unfold u8TripleP at h
  split at h
  · rename_i j1 a h1
    split at h
    · rename_i j2 b h2
      split at h
      · rename_i j3 c h3
        simp only [Except.ok.injEq, Prod.mk.injEq] at h
        obtain ⟨-, h4⟩ := h
        subst h4
        obtain ⟨_, _, ha, _⟩ := terminatedP_ok h1
        obtain ⟨_, _, hb, _⟩ := terminatedP_ok h2
        exact ⟨digitP_le ha, digitP_le hb, digitP_le h3⟩
      · exact Except.noConfusion h
    · exact Except.noConfusion h
  · exact Except.noConfusion h

/-- A successful `map_fail` is a success of the wrapped parser. -/
theorem mapFailP_ok {α : Type} {f : Input → PResult α}
    {m : Input → ParseError → ParseError} {i i1 : Input} {a : α}
    (h : mapFailP f m i = .ok (i1, a)) : f i = .ok (i1, a) := by
  unfold mapFailP mapErrP at h
  cases hf : f i with
  | ok o =>
    rw [hf] at h
    have h2 : (Except.ok o : PResult α) = Except.ok (i1, a) := h
    rw [h2]
  | error f2 =>
    rw [hf] at h
    cases f2 with
    | err e => exact Except.noConfusion (show Except.error (PFail.fail (m i e)) = _ from h)
    | fail e => exact Except.noConfusion (show Except.error (PFail.fail (m i e)) = _ from h)
    | panic => exact Except.noConfusion (show Except.error PFail.panic = _ from h)

/-- Every successful `style_token` has bounded channels. -/
theorem styleTokenP_rgbOk {i i1 : Input} {s : Style}
    (h : styleTokenP i = .ok (i1, s)) : s.rgbOk = true := by
  obtain ⟨p, hmem, hp⟩ := altP_ok _ i (i1, s) h
  simp only [List.mem_cons, List.not_mem_nil, or_false] at hmem
  rcases hmem with rfl | rfl | rfl
  · unfold fgRgbP at hp
    split at hp
    · split at hp
      · rename_i j2 r g b htr
        split at hp
        · simp only [Except.ok.injEq, Prod.mk.injEq] at hp
          obtain ⟨-, h5⟩ := hp
          subst h5
          obtain ⟨hr, hg, hb⟩ := u8TripleP_le (mapFailP_ok htr)
          simp [Style.rgbOk, Color.rgbOk, hr, hg, hb]
        · exact Except.noConfusion hp
      · exact Except.noConfusion hp
    · exact Except.noConfusion hp
  · unfold bgRgbP at hp
    split at hp
    · split at hp
      · rename_i j2 r g b htr
        split at hp
        · simp only [Except.ok.injEq, Prod.mk.injEq] at hp
          obtain ⟨-, h5⟩ := hp
          subst h5
          obtain ⟨hr, hg, hb⟩ := u8TripleP_le (mapFailP_ok htr)
          simp [Style.rgbOk, Color.rgbOk, hr, hg, hb]
        · exact Except.noConfusion hp
      · exact Except.noConfusion hp
    · exact Except.noConfusion hp
  · have h1 : fixedStylesP i = .ok (i1, s) := by
      revert hp
      unfold mapErrP
      split
      · rename_i heq
        intro hp
        have h2 : _ = Except.ok (i1, s) := hp
        exact heq.trans h2
      · rename_i e heq
        intro hp
        exact absurd (show Except.error (PFail.fail _) = _ from hp) (by simp)
      · rename_i e heq
        intro hp
        exact absurd (show Except.error (PFail.err _) = _ from hp) (by simp)
      · intro hp
        exact absurd (show Except.error PFail.panic = _ from hp) (by simp)
    obtain ⟨p2, hmem2, hp2⟩ := altP_ok _ i (i1, s) h1
    simp only [List.mem_cons, List.not_mem_nil, or_false] at hmem2
    rcases hmem2 with rfl|rfl|rfl|rfl|rfl|rfl|rfl|rfl|rfl|rfl|rfl|rfl|rfl|rfl|rfl|rfl|rfl|rfl|rfl|rfl <;>
      · obtain ⟨a, -, rfl⟩ := mapP_ok hp2
        rfl

/-- `CompleteStyle::add` preserves channel bounds. -/
theorem add_rgbOk {s : CompleteStyle} {t : Style} (hs : s.rgbOk = true)
    (ht : t.rgbOk = true) : (s.add t).rgbOk = true := by
  cases t with
  | Fg c => simp_all [CompleteStyle.add, CompleteStyle.rgbOk, Style.rgbOk]
  | Bg c => simp_all [CompleteStyle.add, CompleteStyle.rgbOk, Style.rgbOk]
  | Reset => rfl
  | Bold => simp_all [CompleteStyle.add, CompleteStyle.rgbOk]
  | Italic => simp_all [CompleteStyle.add, CompleteStyle.rgbOk]
  | Underline => simp_all [CompleteStyle.add, CompleteStyle.rgbOk]

/-- The style-fold loop preserves channel bounds. -/
theorem styleFoldLoop_rgbOk :
    ∀ (n : Nat) (acc : CompleteStyle) (i i1 : Input) (s : CompleteStyle),
      acc.rgbOk = true → styleFoldLoop n acc i = .ok (i1, s) → s.rgbOk = true := by
  intro n
  induction n with
  | zero => intro acc i i1 s _ h; cases h
  | succ n ih =>
    intro acc i i1 s hacc h
    simp only [styleFoldLoop] at h
    split at h
    · rename_i heq
      simp only [Except.ok.injEq, Prod.mk.injEq] at h
      exact h.2 ▸ hacc
    · exact Except.noConfusion h
    · rename_i i2 t heq
      split at h
      · exact Except.noConfusion h
      · exact ih _ _ _ _ (add_rgbOk hacc (styleTokenP_rgbOk heq)) h

/-- `fold_many1(style_token, ...)` produces a style with bounded
channels. -/
theorem foldMany1Styles_rgbOk {i i1 : Input} {s : CompleteStyle}
    (h : foldMany1Styles i = .ok (i1, s)) : s.rgbOk = true := by
  unfold foldMany1Styles at h
  split at h
  · exact Except.noConfusion h
  · exact Except.noConfusion h
  · rename_i i2 t heq
    exact styleFoldLoop_rgbOk _ _ _ _ _
      (add_rgbOk (show CompleteStyle.rgbOk CompleteStyle.cdefault = true from rfl)
        (styleTokenP_rgbOk heq)) h

/-- What a successful one-character split guarantees: the prefix is free of
the split character and the suffix starts with it. -/
theorem splitAtChar_spec {c : Char} :
    ∀ {i : Input} {pre : List Char} {post : Input},
      splitAtChar c i = some (pre, post) →
      i = pre ++ post ∧ pre.contains c = false ∧ ∃ rest, post = c :: rest := by
  intro i
  induction i with
  | nil => intro pre post h; cases h
  | cons x xs ih =>
    intro pre post h
    simp only [splitAtChar] at h
    by_cases hx : x = c
    · rw [if_pos hx] at h
      simp only [Option.some.injEq, Prod.mk.injEq] at h
      obtain ⟨h2, h3⟩ := h
      subst h2; subst h3
      exact ⟨rfl, rfl, xs, by rw [hx]⟩
    · rw [if_neg hx] at h
      cases h2 : splitAtChar c xs with
      | some pr =>
        obtain ⟨pre2, post2⟩ := pr
        rw [h2] at h
        simp only [Option.some.injEq, Prod.mk.injEq] at h
        obtain ⟨h3, h4⟩ := h
        subst h3; subst h4
        obtain ⟨he, hc, hr⟩ := ih h2
        refine ⟨by rw [he]; rfl, ?_, hr⟩
        simp only [List.contains_cons, Bool.or_eq_false_iff, beq_eq_false_iff_ne, ne_eq]
        exact ⟨fun hcc => hx hcc.symm, hc⟩
      | none => rw [h2] at h; cases h

/-- A context wrapper passes successes through unchanged. -/
theorem withContext_ok {α : Type} {c : String} {i : Input} {r : PResult α}
    {o : Input × α} (h : withContext c i r = .ok o) : r = .ok o := by
  cases r with
  | ok o2 => exact h
  | error f => cases f <;> exact Except.noConfusion h

/-- A successful literal expression is canonical (its content has no
quote). -/
theorem literalExpressionP_canon {i i1 : Input} {e : Expression}
    (h : literalExpressionP i = .ok (i1, e)) : e.canon = true := by
  unfold literalExpressionP at h
  split at h
  · rename_i j1 c1 hc1
    split at h
    · rename_i j2 content hcontent
      split at h
      · rename_i j3 c2 hc2
        simp only [Except.ok.injEq, Prod.mk.injEq] at h
        obtain ⟨-, he⟩ := h
        subst he
        have hs : takeUntilP '\'' j1 = .ok (j2, content) := mapFailP_ok hcontent
        unfold takeUntilP at hs
        split at hs
        · rename_i pre post hsplit
          simp only [Except.ok.injEq, Prod.mk.injEq] at hs
          obtain ⟨-, hpre⟩ := hs
          subst hpre
          obtain ⟨-, hnoq, -⟩ := splitAtChar_spec hsplit
          simp only [Expression.canon, Bool.not_eq_true']
          simpa using hnoq
        · exact Except.noConfusion hs
      · exact Except.noConfusion h
    · exact Except.noConfusion h
  · exact Except.noConfusion h

/-- A successful separator expression is canonical. -/
theorem separatorExpressionP_canon {i i1 : Input} {e : Expression}
    (h : separatorExpressionP i = .ok (i1, e)) : e.canon = true := by
  obtain ⟨a, -, rfl⟩ := mapP_ok h
  rfl

/-- Every tree the parser produces is canonical, at every fuel: each
grammar function's successful result satisfies `canon`. -/
theorem canonAux : ∀ fuel : Nat,
    (∀ i i1 e, expressionP fuel i = .ok (i1, e) → e.canon = true)
    ∧ (∀ i i1 e, groupExpressionP fuel i = .ok (i1, e) → e.canon = true)
    ∧ (∀ right inp0 i i1 es, delimLoopP fuel right inp0 i = .ok (i1, es) →
        canonList es = true)
    ∧ (∀ i i1 es, subTreeP fuel i = .ok (i1, es) → canonList es = true)
    ∧ (∀ i i1 e, namedExpressionP fuel i = .ok (i1, e) → e.canon = true)
    ∧ (∀ i i1 e, formatExpressionP fuel i = .ok (i1, e) → e.canon = true)
    ∧ (∀ i i1 es, manyExprsP fuel i = .ok (i1, es) → canonList es = true) := by
  intro fuel
  induction fuel with
  | zero =>
    refine ⟨fun i i1 e h => Except.noConfusion h, fun i i1 e h => Except.noConfusion h,
      fun right inp0 i i1 es h => Except.noConfusion h,
      fun i i1 es h => Except.noConfusion h, fun i i1 e h => Except.noConfusion h,
      fun i i1 e h => Except.noConfusion h, fun i i1 es h => Except.noConfusion h⟩
  | succ fuel ih =>
    obtain ⟨ihE, ihG, ihL, ihS, ihN, ihF, ihM⟩ := ih
    refine ⟨?_, ?_, ?_, ?_, ?_, ?_, ?_⟩
    -- expressionP
    · intro i i1 e h
      simp only [expressionP] at h
      split at h
      · -- group errored, try string
        split at h
        · -- string errored, try format
          split at h
          · -- format errored, try separator
            split at h
            · exact ihN _ _ _ h
            · exact separatorExpressionP_canon h
          · exact ihF _ _ _ (withContext_ok h)
        · exact literalExpressionP_canon (withContext_ok h)
      · exact ihG _ _ _ (withContext_ok h)
    -- groupExpressionP
    · intro i i1 e h
      simp only [groupExpressionP] at h
      split at h
      · rename_i j1 t1 heq1
        split at h
        · rename_i j2 sub hloop
          simp only [Except.ok.injEq, Prod.mk.injEq] at h
          obtain ⟨-, he⟩ := h
          subst he
          exact ihL _ _ _ _ _ hloop
        · exact Except.noConfusion h
      · split at h
        · rename_i j1 t1 heq1
          split at h
          · rename_i j2 sub hloop
            simp only [Except.ok.injEq, Prod.mk.injEq] at h
            obtain ⟨-, he⟩ := h
            subst he
            exact ihL _ _ _ _ _ hloop
          · exact Except.noConfusion h
        · split at h
          · rename_i j1 t1 heq1
            split at h
            · rename_i j2 sub hloop
              simp only [Except.ok.injEq, Prod.mk.injEq] at h
              obtain ⟨-, he⟩ := h
              subst he
              exact ihL _ _ _ _ _ hloop
            · exact Except.noConfusion h
          · split at h
            · rename_i j1 t1 heq1
              split at h
              · rename_i j2 sub hloop
                simp only [Except.ok.injEq, Prod.mk.injEq] at h
                obtain ⟨-, he⟩ := h
                subst he
                exact ihL _ _ _ _ _ hloop
              · exact Except.noConfusion h
            · exact Except.noConfusion h
          · exact Except.noConfusion h
        · exact Except.noConfusion h
      · exact Except.noConfusion h
    -- delimLoopP
    · intro right inp0 i i1 es h
      simp only [delimLoopP] at h
      split at h
      · -- item errored: right decides
        split at h
        · rename_i j2 c2 hr
          simp only [Except.ok.injEq, Prod.mk.injEq] at h
          obtain ⟨-, he⟩ := h
          subst he
          rfl
        · split at h <;> exact Except.noConfusion h
        · exact Except.noConfusion h
      · exact Except.noConfusion h
      · rename_i j1 o hitem
        split at h
        · exact Except.noConfusion h
        · split at h
          · rename_i j2 os hrec
            simp only [Except.ok.injEq, Prod.mk.injEq] at h
            obtain ⟨-, he⟩ := h
            subst he
            simp only [canonList, Bool.and_eq_true]
            exact ⟨ihE _ _ _ hitem, ihL _ _ _ _ _ hrec⟩
          · exact Except.noConfusion h
    -- subTreeP
    · intro i i1 es h
      simp only [subTreeP] at h
      split at h
      · rename_i j1 c1 hc1
        exact ihL _ _ _ _ _ h
      · exact Except.noConfusion h
    -- namedExpressionP
    · intro i i1 e h
      simp only [namedExpressionP] at h
      split at h
      · rename_i j1 name hname
        split at h
        · rename_i j2 sub hsub
          simp only [Except.ok.injEq, Prod.mk.injEq] at h
          obtain ⟨-, he⟩ := h
          subst he
          exact ihS _ _ _ hsub
        · simp only [Except.ok.injEq, Prod.mk.injEq] at h
          obtain ⟨-, he⟩ := h
          subst he
          rfl
        · exact Except.noConfusion h
        · exact Except.noConfusion h
      · exact Except.noConfusion h
    -- formatExpressionP
    · intro i i1 e h
      simp only [formatExpressionP] at h
      split at h
      · rename_i j1 t1 htag
        split at h
        · rename_i j2 style hstyle
          split at h
          · rename_i j3 sub hsub
            simp only [Except.ok.injEq, Prod.mk.injEq] at h
            obtain ⟨-, he⟩ := h
            subst he
            simp only [Expression.canon, Bool.and_eq_true]
            exact ⟨foldMany1Styles_rgbOk hstyle, ihS _ _ _ hsub⟩
          · exact Except.noConfusion h
          · exact Except.noConfusion h
        · exact Except.noConfusion h
        · exact Except.noConfusion h
        · exact Except.noConfusion h
      · exact Except.noConfusion h
    -- manyExprsP
    · intro i i1 es h
      simp only [manyExprsP] at h
      split at h
      · simp only [Except.ok.injEq, Prod.mk.injEq] at h
        obtain ⟨-, he⟩ := h
        subst he
        rfl
      · exact Except.noConfusion h
      · rename_i j1 e1 hitem
        split at h
        · exact Except.noConfusion h
        · split at h
          · rename_i j2 es2 hrec
            simp only [Except.ok.injEq, Prod.mk.injEq] at h
            obtain ⟨-, he⟩ := h
            subst he
            simp only [canonList, Bool.and_eq_true]
            exact ⟨ihE _ _ _ hitem, ihM _ _ _ hrec⟩
          · exact Except.noConfusion h

/-! ## Round-trip development, part 2: plumbing lemmas for re-parsing a
rendered tree. -/

/-- `char(c)` succeeds on its own character. -/
theorem charP_self (c : Char) (rest : Input) : charP c (c :: rest) = .ok (rest, c) := by
  simp [charP]

/-- `char(c)` errors on a different character. -/
theorem charP_ne {x c : Char} (h : x ≠ c) (rest : Input) :
    charP c (x :: rest) = .error (.err (ParseError.fromChar (x :: rest) c)) := by
  simp [charP, h]

/-- `tag(t)` consumes exactly its text. -/
theorem tagP_self (t k : List Char) : tagP t (t ++ k) = .ok (k, t) := by
  have hpre : t.isPrefixOf (t ++ k) = true := by
    induction t with
    | nil => simp [List.isPrefixOf]
    | cons c cs ih => simp [List.isPrefixOf, ih]
  simp [tagP, hpre]

/-- `tag(t)` errors when its text is not a prefix. -/
theorem tagP_not {t : List Char} {i : Input} (h : t.isPrefixOf i = false) :
    tagP t i = .error (.err (ParseError.fromErrorKind i .Tag)) := by
  simp [tagP, h]

/-- `map_err` passes successes through. -/
theorem mapErrP_of_ok {α : Type} {f : Input → PResult α}
    {m : Input → ParseError → ParseError} {i : Input} {o : Input × α}
    (h : f i = .ok o) : mapErrP f m i = .ok o := by
  simp [mapErrP, h]

/-- `map_err` keeps the recoverable severity. -/
theorem mapErrP_of_err {α : Type} {f : Input → PResult α}
    {m : Input → ParseError → ParseError} {i : Input} {e : ParseError}
    (h : f i = .error (.err e)) : mapErrP f m i = .error (.err (m i e)) := by
  simp [mapErrP, h]

/-- `map_fail` passes successes through. -/
theorem mapFailP_of_ok {α : Type} {f : Input → PResult α}
    {m : Input → ParseError → ParseError} {i : Input} {o : Input × α}
    (h : f i = .ok o) : mapFailP f m i = .ok o := by
  simp [mapFailP, mapErrP, h]

/-- The rendering of an expression is never empty and never starts with a
bare `(`. -/
theorem display_head (e : Expression) :
    ∃ c cs, Expression.display e = c :: cs ∧ c ≠ '(' := by
  cases e with
  | Named name sub => cases name <;> exact ⟨_, _, rfl, by decide⟩
  | Group d sub => cases d <;> exact ⟨_, _, rfl, by decide⟩
  | Format style sub => exact ⟨_, _, rfl, by decide⟩
  | Literal s => exact ⟨_, _, rfl, by decide⟩
  | Separator s => cases s <;> exact ⟨_, _, rfl, by decide⟩

/-- A rendered list followed by a paren-free tail never starts with `(`. -/
theorem displayList_head_ne (es : List Expression) (tail : Input)
    (h : tail.head? ≠ some '(') :
    (displayList es ++ tail).head? ≠ some '(' := by
  cases es with
  | nil => simpa [displayList] using h
  | cons e es =>
    obtain ⟨c, cs, hd, hc⟩ := display_head e
    simp [displayList, hd, hc]

/-- Tails differ from a non-empty list prepended to them. -/
theorem ne_append_of_ne_nil {xs ys : List Char} (h : xs ≠ []) : ys ≠ xs ++ ys := by
  intro heq
  have hl := congrArg List.length heq
  simp [List.length_append] at hl
  exact h hl

/-- `expression` falls through to `named_expression` when the four earlier
alternatives error. -/
theorem expressionP_via_named {f : Nat} {i : Input}
    (hg : ∃ eg, groupExpressionP f i = .error (.err eg))
    (hl : ∃ el, literalExpressionP i = .error (.err el))
    (hf : ∃ ef, formatExpressionP f i = .error (.err ef))
    (hs : ∃ e4, separatorExpressionP i = .error (.err e4)) :
    expressionP (f + 1) i = namedExpressionP f i := by
  obtain ⟨eg, hg⟩ := hg
  obtain ⟨el, hl⟩ := hl
  obtain ⟨ef, hf⟩ := hf
  obtain ⟨e4, hs⟩ := hs
  simp [expressionP, withContext, hg, hl, hf, hs]

/-- `expression` returns a group success. -/
theorem expressionP_via_group {f : Nat} {i : Input} {o : Input × Expression}
    (hg : groupExpressionP f i = .ok o) : expressionP (f + 1) i = .ok o := by
  simp [expressionP, withContext, hg]

/-- `expression` returns a literal success once `group` errored. -/
theorem expressionP_via_literal {f : Nat} {i : Input} {o : Input × Expression}
    (hg : ∃ eg, groupExpressionP f i = .error (.err eg))
    (hl : literalExpressionP i = .ok o) : expressionP (f + 1) i = .ok o := by
  obtain ⟨eg, hg⟩ := hg
  simp [expressionP, withContext, hg, hl]

/-- `expression` returns a format success once `group` and `string`
errored. -/
theorem expressionP_via_format {f : Nat} {i : Input} {o : Input × Expression}
    (hg : ∃ eg, groupExpressionP f i = .error (.err eg))
    (hl : ∃ el, literalExpressionP i = .error (.err el))
    (hf : formatExpressionP f i = .ok o) : expressionP (f + 1) i = .ok o := by
  obtain ⟨eg, hg⟩ := hg
  obtain ⟨el, hl⟩ := hl
  simp [expressionP, withContext, hg, hl, hf]

/-- `expression` returns a separator success once the three earlier
alternatives errored. -/
theorem expressionP_via_sep {f : Nat} {i : Input} {o : Input × Expression}
    (hg : ∃ eg, groupExpressionP f i = .error (.err eg))
    (hl : ∃ el, literalExpressionP i = .error (.err el))
    (hf : ∃ ef, formatExpressionP f i = .error (.err ef))
    (hs : separatorExpressionP i = .ok o) : expressionP (f + 1) i = .ok o := by
  obtain ⟨eg, hg⟩ := hg
  obtain ⟨el, hl⟩ := hl
  obtain ⟨ef, hf⟩ := hf
  simp [expressionP, withContext, hg, hl, hf, hs]

/-- `group_expression` errors when no arm's opening tag matches. -/
theorem groupExpP_err {f : Nat} {i : Input}
    (h1 : List.isPrefixOf ['<'] i = false) (h2 : List.isPrefixOf ['['] i = false)
    (h3 : List.isPrefixOf ['\x7b'] i = false)
    (h4 : List.isPrefixOf ['\\', '('] i = false) :
    groupExpressionP (f + 1) i = .error (.err (ParseError.fromErrorKind i .Tag)) := by
  simp [groupExpressionP, tagP, h1, h2, h3, h4]

/-- `literal_expression` errors when the input does not open with a
quote. -/
theorem literalExpP_err {i : Input} {e : ParseError}
    (h : charP '\'' i = .error (.err e)) :
    literalExpressionP i = .error (.err e) := by
  simp [literalExpressionP, h]

/-- `format_expression` errors when the input does not open with `#`. -/
theorem formatExpP_err {f : Nat} {i : Input} {e : ParseError}
    (h : tagP ['#'] i = .error (.err e)) :
    formatExpressionP (f + 1) i = .error (.err e) := by
  simp [formatExpressionP, h]

/-- `separator_expression` errors when no glyph matches. -/
theorem sepExpP_err {i : Input}
    (h1 : List.isPrefixOf ['@'] i = false) (h2 : List.isPrefixOf ['|'] i = false)
    (h3 : List.isPrefixOf ['.'] i = false) (h4 : List.isPrefixOf [','] i = false)
    (h5 : List.isPrefixOf [' '] i = false) (h6 : List.isPrefixOf [':'] i = false)
    (h7 : List.isPrefixOf [';'] i = false) (h8 : List.isPrefixOf ['_'] i = false) :
    separatorExpressionP i = .error (.err (ParseError.fromErrorKind i .Tag)) := by
  simp [separatorExpressionP, altP, mapP, tagP, h1, h2, h3, h4, h5, h6, h7, h8]

/-- `expression` errors (recoverably) at end of input and at every closing
delimiter — the inputs at which the `many0` loops hand over to their
`right` parser. -/
theorem expressionP_stop (f : Nat) (i : Input)
    (h : i = [] ∨ ∃ c rest, i = c :: rest ∧ (c = ')' ∨ c = ']' ∨ c = '>' ∨ c = '\x7d')) :
    ∃ e, expressionP (f + 2) i = .error (.err e) := by
  rcases h with rfl | ⟨c, rest, rfl, hc⟩
  · exact ⟨_, rfl⟩
  · rcases hc with rfl | rfl | rfl | rfl <;> exact ⟨_, rfl⟩

/-- The name table re-parses each rendered name tag. -/
theorem nameTokenP_display (n : Name) (k : Input) :
    nameTokenP (Name.display n ++ k) = .ok (k, n) := by
  cases n <;>
    first
      | rfl
      | (have ht : tagP ['\\', '\''] ('\\' :: '\'' :: k) = .ok (k, ['\\', '\'']) :=
          tagP_self ['\\', '\''] k
         simp [nameTokenP, altP, mapP, charP, Name.display, List.cons_append, ht])

/-- The 256 `u8` values round-trip through decimal rendering: every digit
of `Nat.repr` is an ASCII digit (hence also passes `is_digit`'s byte
test), the rendering is non-empty, and parsing it back recovers the
value. -/
theorem reprDigitFacts : ∀ m : Fin 256,
    ((Nat.repr m.val).data.all isAsciiDigit
      && (Nat.repr m.val).data.all isDigitByte
      && !(Nat.repr m.val).data.isEmpty
      && (digitsToNat (Nat.repr m.val).data == m.val)) = true := by
  decide

/-- `takeWhile`/`dropWhile` split an all-satisfying prefix followed by a
failing character. -/
theorem takeWhile_append_stop {p : Char → Bool} :
    ∀ (xs : List Char) {c : Char} (rest : List Char),
      xs.all p = true → p c = false →
      (xs ++ c :: rest).takeWhile p = xs ∧ (xs ++ c :: rest).dropWhile p = c :: rest := by
  intro xs
  induction xs with
  | nil =>
    intro c rest _ hc
    simp [List.takeWhile, List.dropWhile, hc]
  | cons x xs ih =>
    intro c rest hall hc
    simp only [List.all_cons, Bool.and_eq_true] at hall
    obtain ⟨hx, hxs⟩ := hall
    obtain ⟨h1, h2⟩ := ih rest hxs hc
    simp [List.takeWhile, List.dropWhile, hx, h1, h2]

/-- `digit` consumes exactly the decimal rendering of a value `≤ 255` when
the next character is not a digit byte. -/
theorem digitP_display {n : Nat} (hn : n ≤ 255) {c : Char} (rest : Input)
    (hc : isDigitByte c = false) :
    digitP ((Nat.repr n).data ++ c :: rest) = .ok (c :: rest, n) := by
  have hfacts := reprDigitFacts ⟨n, by omega⟩
  simp only [Bool.and_eq_true, Bool.not_eq_true', beq_iff_eq] at hfacts
  obtain ⟨⟨⟨hascii, hbyte⟩, hne⟩, hval⟩ := hfacts
  obtain ⟨htake, hdrop⟩ := takeWhile_append_stop (Nat.repr n).data rest hbyte hc
  have hcons : ∃ d ds, (Nat.repr n).data = d :: ds := by
    cases hd : (Nat.repr n).data with
    | nil => rw [hd] at hne; simp at hne
    | cons d ds => exact ⟨d, ds, rfl⟩
  obtain ⟨d, ds, hd⟩ := hcons
  unfold digitP takeWhile1P
  rw [htake, hdrop, hd]
  have hu : u8FromBytes (d :: ds) = some n := by
    rw [← hd]
    simp [u8FromBytes, hascii, hne, hval, hn]
  simp [hu]

/-- `u8_triple` consumes exactly a rendered triple up to a non-digit
closer. -/
theorem u8TripleP_display {r g b : Nat} (hr : r ≤ 255) (hg : g ≤ 255)
    (hb : b ≤ 255) {c : Char} (rest : Input) (hc : isDigitByte c = false) :
    u8TripleP ((Nat.repr r).data ++ ',' :: (Nat.repr g).data ++ ',' :: (Nat.repr b).data
        ++ c :: rest)
      = .ok (c :: rest, (r, g, b)) := by
  have h1 : digitP ((Nat.repr r).data ++ ',' :: ((Nat.repr g).data ++ ',' :: (Nat.repr b).data ++ c :: rest))
      = .ok (',' :: ((Nat.repr g).data ++ ',' :: (Nat.repr b).data ++ c :: rest), r) :=
    digitP_display hr _ (by decide)
  have h2 : digitP ((Nat.repr g).data ++ ',' :: ((Nat.repr b).data ++ c :: rest))
      = .ok (',' :: ((Nat.repr b).data ++ c :: rest), g) :=
    digitP_display hg _ (by decide)
  have h3 : digitP ((Nat.repr b).data ++ c :: rest) = .ok (c :: rest, b) :=
    digitP_display hb _ hc
  unfold u8TripleP terminatedP
  simp only [List.append_assoc, List.cons_append] at h1 h2 h3 ⊢
  simp only [h1, charP_self, h2, h3]

/-- `fg_rgb` consumes exactly a rendered foreground RGB token. -/
theorem fgRgbP_display {r g b : Nat} (hr : r ≤ 255) (hg : g ≤ 255) (hb : b ≤ 255)
    (k : Input) :
    fgRgbP ('[' :: ((Nat.repr r).data ++ ',' :: (Nat.repr g).data ++ ','
        :: (Nat.repr b).data ++ ']' :: k))
      = .ok (k, Style.Fg (.RGB r g b)) := by
  have htr : u8TripleP ((Nat.repr r).data ++ ',' :: (Nat.repr g).data ++ ','
      :: (Nat.repr b).data ++ ']' :: k) = .ok (']' :: k, (r, g, b)) :=
    u8TripleP_display hr hg hb k (by decide)
  simp only [List.append_assoc, List.cons_append] at htr
  unfold fgRgbP
  simp [mapFailP, mapErrP, charP_self, htr]

/-- `bg_rgb` consumes exactly a rendered background RGB token. -/
theorem bgRgbP_display {r g b : Nat} (hr : r ≤ 255) (hg : g ≤ 255) (hb : b ≤ 255)
    (k : Input) :
    bgRgbP ('\x7b' :: ((Nat.repr r).data ++ ',' :: (Nat.repr g).data ++ ','
        :: (Nat.repr b).data ++ '\x7d' :: k))
      = .ok (k, Style.Bg (.RGB r g b)) := by
  have htr : u8TripleP ((Nat.repr r).data ++ ',' :: (Nat.repr g).data ++ ','
      :: (Nat.repr b).data ++ '\x7d' :: k) = .ok ('\x7d' :: k, (r, g, b)) :=
    u8TripleP_display hr hg hb k (by decide)
  simp only [List.append_assoc, List.cons_append] at htr
  unfold bgRgbP
  simp [mapFailP, mapErrP, charP_self, htr]

/-- `style_token` re-parses each rendered token (channels within range). -/
theorem styleTokenP_display (t : Style) (ht : t.rgbOk = true) (k : Input) :
    styleTokenP (Style.display t ++ k) = .ok (k, t) := by
  cases t with
  | Fg c =>
    cases c with
    | RGB r g b =>
      simp only [Style.rgbOk, Color.rgbOk, Bool.and_eq_true, decide_eq_true_eq] at ht
      obtain ⟨⟨hr, hg⟩, hb⟩ := ht
      have hfg := fgRgbP_display hr hg hb k
      simp only [Style.display, List.cons_append, List.append_assoc,
        List.singleton_append, List.nil_append]
      simp only [styleTokenP, altP]
      simp only [List.append_assoc, List.cons_append] at hfg
      simp [hfg]
    | Red => rfl
    | Green => rfl
    | Yellow => rfl
    | Blue => rfl
    | Magenta => rfl
    | Cyan => rfl
    | White => rfl
    | Black => rfl
  | Bg c =>
    cases c with
    | RGB r g b =>
      simp only [Style.rgbOk, Color.rgbOk, Bool.and_eq_true, decide_eq_true_eq] at ht
      obtain ⟨⟨hr, hg⟩, hb⟩ := ht
      have hbg := bgRgbP_display hr hg hb k
      simp only [Style.display, List.cons_append, List.append_assoc,
        List.singleton_append, List.nil_append]
      simp only [styleTokenP, altP]
      simp only [List.append_assoc, List.cons_append] at hbg
      have hferr : fgRgbP ('{' :: ((Nat.repr r).data ++ ',' :: ((Nat.repr g).data ++ ','
          :: ((Nat.repr b).data ++ '}' :: k))))
          = .error (.err (ParseError.fromChar ('{' :: ((Nat.repr r).data ++ ','
            :: ((Nat.repr g).data ++ ',' :: ((Nat.repr b).data ++ '}' :: k)))) '[')) := rfl
      simp [hferr, hbg]
    | Red => rfl
    | Green => rfl
    | Yellow => rfl
    | Blue => rfl
    | Magenta => rfl
    | Cyan => rfl
    | White => rfl
    | Black => rfl
  | Reset => rfl
  | Bold => rfl
  | Underline => rfl
  | Italic => rfl

/-- `style_token` errors (recoverably) at the `(` that opens a format's
sub-tree. -/
theorem styleTokenP_lparen (rest : Input) :
    styleTokenP ('(' :: rest)
      = .error (.err ⟨(('(' :: rest : Input), .UnrecognizedStyle), none, none⟩) := rfl

/-- A rendered token is never empty. -/
theorem styleDisplay_ne_nil (t : Style) : Style.display t ≠ [] := by
  cases t with
  | Fg c => cases c <;> simp [Style.display]
  | Bg c => cases c <;> simp [Style.display]
  | Reset => simp [Style.display]
  | Bold => simp [Style.display]
  | Underline => simp [Style.display]
  | Italic => simp [Style.display]

/-- The token sequence whose concatenated rendering is
`CompleteStyle.display` for a non-default style: fg, bg, bold, italics,
underline in that order. -/
def styleTokens (s : CompleteStyle) : List Style :=
  (match s.fg with | some c => [Style.Fg c] | none => [])
    ++ (match s.bg with | some c => [Style.Bg c] | none => [])
    ++ (if s.bold then [Style.Bold] else [])
    ++ (if s.italics then [Style.Italic] else [])
    ++ (if s.underline then [Style.Underline] else [])

/-- Concatenated rendering of a token list. -/
def displayToks : List Style → List Char
  | [] => []
  | t :: ts => Style.display t ++ displayToks ts

/-- For a non-default style, `display` is the concatenated rendering of
its token sequence. -/
theorem display_eq_displayToks (s : CompleteStyle) (hs : s ≠ CompleteStyle.cdefault) :
    CompleteStyle.display s = displayToks (styleTokens s) := by
  obtain ⟨fg, bg, b1, b2, b3⟩ := s
  simp only [CompleteStyle.display, if_neg hs]
  cases fg <;> cases bg <;> cases b1 <;> cases b2 <;> cases b3 <;>
    simp [styleTokens, displayToks]

/-- Folding the token sequence from the default recovers the style. -/
theorem fold_styleTokens (s : CompleteStyle) (hs : s ≠ CompleteStyle.cdefault) :
    List.foldl CompleteStyle.add CompleteStyle.cdefault (styleTokens s) = s := by
  obtain ⟨fg, bg, b1, b2, b3⟩ := s
  cases fg <;> cases bg <;> cases b1 <;> cases b2 <;> cases b3 <;>
    first
      | exact absurd rfl hs
      | simp [styleTokens, CompleteStyle.add, CompleteStyle.cdefault]

/-- The token sequence of a non-default style is non-empty. -/
theorem styleTokens_ne_nil (s : CompleteStyle) (hs : s ≠ CompleteStyle.cdefault) :
    styleTokens s ≠ [] := by
  obtain ⟨fg, bg, b1, b2, b3⟩ := s
  cases fg <;> cases bg <;> cases b1 <;> cases b2 <;> cases b3 <;>
    first
      | exact absurd rfl hs
      | simp [styleTokens]

/-- Tokens of a bounded style are bounded. -/
theorem styleTokens_rgbOk (s : CompleteStyle) (hsok : s.rgbOk = true) :
    ∀ t ∈ styleTokens s, t.rgbOk = true := by
  simp only [CompleteStyle.rgbOk, Bool.and_eq_true] at hsok
  obtain ⟨hf, hb⟩ := hsok
  intro t ht
  unfold styleTokens at ht
  rcases List.mem_append.mp ht with h4 | hE
  rotate_left
  · by_cases h1 : s.underline
    · rw [if_pos h1] at hE; simp at hE; subst hE; rfl
    · rw [if_neg h1] at hE; simp at hE
  rcases List.mem_append.mp h4 with h3 | hD
  rotate_left
  · by_cases h1 : s.italics
    · rw [if_pos h1] at hD; simp at hD; subst hD; rfl
    · rw [if_neg h1] at hD; simp at hD
  rcases List.mem_append.mp h3 with h2 | hC
  rotate_left
  · by_cases h1 : s.bold
    · rw [if_pos h1] at hC; simp at hC; subst hC; rfl
    · rw [if_neg h1] at hC; simp at hC
  rcases List.mem_append.mp h2 with hA | hB
  · cases hfg : s.fg with
    | some c =>
      rw [hfg] at hA; simp at hA; subst hA
      rw [hfg] at hf; simpa [Style.rgbOk] using hf
    | none => rw [hfg] at hA; simp at hA
  · cases hbg : s.bg with
    | some c =>
      rw [hbg] at hB; simp at hB; subst hB
      rw [hbg] at hb; simpa [Style.rgbOk] using hb
    | none => rw [hbg] at hB; simp at hB

/-- The style-fold loop consumes a rendered token sequence up to the
opening paren and folds the tokens. -/
theorem styleFoldLoop_display :
    ∀ (toks : List Style) (acc : CompleteStyle) (rest : Input) (n : Nat),
      (∀ t ∈ toks, t.rgbOk = true) → (displayToks toks).length < n →
      styleFoldLoop n acc (displayToks toks ++ '(' :: rest)
        = .ok ('(' :: rest, List.foldl CompleteStyle.add acc toks) := by
  intro toks
  induction toks with
  | nil =>
    intro acc rest n _ hn
    obtain ⟨m, rfl⟩ : ∃ m, n = m + 1 := ⟨n - 1, by omega⟩
    simp [styleFoldLoop, displayToks, styleTokenP_lparen]
  | cons t ts ih =>
    intro acc rest n hok hn
    obtain ⟨m, rfl⟩ : ∃ m, n = m + 1 := ⟨n - 1, by omega⟩
    have hts : styleTokenP (Style.display t ++ (displayToks ts ++ '(' :: rest))
        = .ok (displayToks ts ++ '(' :: rest, t) :=
      styleTokenP_display t (hok t (by simp)) _
    have hne : displayToks ts ++ '(' :: rest
        ≠ Style.display t ++ (displayToks ts ++ '(' :: rest) :=
      ne_append_of_ne_nil (styleDisplay_ne_nil t)
    have hlen : (displayToks ts).length < m := by
      have h1 : (displayToks (t :: ts)).length
          = (Style.display t).length + (displayToks ts).length := by
        simp [displayToks]
      have h2 : (Style.display t).length ≥ 1 := by
        cases hd : Style.display t with
        | nil => exact absurd hd (styleDisplay_ne_nil t)
        | cons c cs => simp
      omega
    simp only [displayToks, List.append_assoc]
    simp only [styleFoldLoop, hts, if_neg hne]
    simpa using ih (acc.add t) rest m (fun x hx => hok x (by simp [hx])) hlen

/-- `fold_many1(style_token, ...)` consumes a non-default style's whole
rendering (up to the format's `(`) and refolds it to the style, and
likewise consumes `~` for the default style. -/
theorem foldMany1Styles_display (s : CompleteStyle) (hsok : s.rgbOk = true)
    (rest : Input) :
    foldMany1Styles (CompleteStyle.display s ++ '(' :: rest) = .ok ('(' :: rest, s) := by
  by_cases hs : s = CompleteStyle.cdefault
  · subst hs
    have hdisp : CompleteStyle.display CompleteStyle.cdefault ++ '(' :: rest
        = '~' :: '(' :: rest := rfl
    rw [hdisp]
    unfold foldMany1Styles
    have h1 : styleTokenP ('~' :: '(' :: rest) = .ok ('(' :: rest, Style.Reset) := rfl
    have h2 : CompleteStyle.cdefault.add Style.Reset = CompleteStyle.cdefault := rfl
    simp only [h1]
    simp [styleFoldLoop, styleTokenP_lparen, h2]
  · rw [display_eq_displayToks s hs]
    obtain ⟨t, ts, hts⟩ : ∃ t ts, styleTokens s = t :: ts := by
      cases h : styleTokens s with
      | nil => exact absurd h (styleTokens_ne_nil s hs)
      | cons t ts => exact ⟨t, ts, rfl⟩
    rw [hts]
    have hok := styleTokens_rgbOk s hsok
    rw [hts] at hok
    have ht1 : styleTokenP (Style.display t ++ (displayToks ts ++ '(' :: rest))
        = .ok (displayToks ts ++ '(' :: rest, t) :=
      styleTokenP_display t (hok t (by simp)) _
    have hloop := styleFoldLoop_display ts (CompleteStyle.cdefault.add t) rest
      ((displayToks ts ++ '(' :: rest).length + 1)
      (fun x hx => hok x (by simp [hx]))
      (by simp [List.length_append]; omega)
    have hfold : List.foldl CompleteStyle.add (CompleteStyle.cdefault.add t) ts = s := by
      have := fold_styleTokens s hs
      rw [hts] at this
      simpa [List.foldl] using this
    simp only [displayToks, List.append_assoc]
    unfold foldMany1Styles
    simp only [ht1]
    rw [hloop, hfold]

/-! ## Round-trip, Lemma B: a canonical tree's rendering re-parses.

First the head-dispatch lemmas: which of `expression`'s alternatives fires
is decided by the first one or two characters of the input. -/

/-- A singleton tag misses an input with a different head. -/
theorem isPrefixOf_single {c d : Char} (rest : Input) (h : c ≠ d) :
    List.isPrefixOf [c] (d :: rest) = false := by
  simp [List.isPrefixOf, h]

/-- A two-character tag misses an input with a different head. -/
theorem isPrefixOf_pair_head {a b d : Char} (rest : Input) (h : a ≠ d) :
    List.isPrefixOf [a, b] (d :: rest) = false := by
  simp [List.isPrefixOf, h]

/-- A two-character tag misses when the second characters differ. -/
theorem isPrefixOf_pair_second {a b d : Char} (rest : Input) (h : b ≠ d) :
    List.isPrefixOf [a, b] (a :: d :: rest) = false := by
  simp [List.isPrefixOf, h]

/-- Rendered expressions are never empty. -/
theorem display_ne_nil (e : Expression) : Expression.display e ≠ [] := by
  obtain ⟨c, cs, hd, -⟩ := display_head e
  simp [hd]

/-- On an input opening with none of the group, string, format or
separator head characters, `expression` reduces to `named_expression`. -/
theorem expressionP_to_named {f : Nat} {c : Char} {rest : Input}
    (h1 : c ≠ '<') (h2 : c ≠ '[') (h3 : c ≠ '\x7b')
    (h4 : List.isPrefixOf ['\\', '('] (c :: rest) = false)
    (h5 : c ≠ '\'') (h6 : c ≠ '#')
    (h7 : c ≠ '@') (h8 : c ≠ '|') (h9 : c ≠ '.') (h10 : c ≠ ',')
    (h11 : c ≠ ' ') (h12 : c ≠ ':') (h13 : c ≠ ';') (h14 : c ≠ '_') :
    expressionP (f + 2) (c :: rest) = namedExpressionP (f + 1) (c :: rest) :=
  expressionP_via_named
    ⟨_, groupExpP_err (isPrefixOf_single _ (Ne.symm h1))
      (isPrefixOf_single _ (Ne.symm h2)) (isPrefixOf_single _ (Ne.symm h3)) h4⟩
    ⟨_, literalExpP_err (charP_ne h5 rest)⟩
    ⟨_, formatExpP_err (tagP_not (isPrefixOf_single _ (Ne.symm h6)))⟩
    ⟨_, sepExpP_err (isPrefixOf_single _ (Ne.symm h7))
      (isPrefixOf_single _ (Ne.symm h8)) (isPrefixOf_single _ (Ne.symm h9))
      (isPrefixOf_single _ (Ne.symm h10)) (isPrefixOf_single _ (Ne.symm h11))
      (isPrefixOf_single _ (Ne.symm h12)) (isPrefixOf_single _ (Ne.symm h13))
      (isPrefixOf_single _ (Ne.symm h14))⟩

/-- On an input opening with a rendered name, `expression` reduces to
`named_expression`. -/
theorem expressionP_to_named_name (f : Nat) (name : Name) (T : Input) :
    expressionP (f + 2) (Name.display name ++ T)
      = namedExpressionP (f + 1) (Name.display name ++ T) := by
  cases name <;>
    first
      | exact expressionP_to_named (by decide) (by decide) (by decide)
          (isPrefixOf_pair_head _ (by decide)) (by decide) (by decide)
          (by decide) (by decide) (by decide) (by decide) (by decide)
          (by decide) (by decide) (by decide)
      | exact expressionP_to_named (by decide) (by decide) (by decide)
          (isPrefixOf_pair_second _ (by decide)) (by decide) (by decide)
          (by decide) (by decide) (by decide) (by decide) (by decide)
          (by decide) (by decide) (by decide)

/-- On a quote-opened input, a successful `literal_expression` is what
`expression` returns. -/
theorem expressionP_to_literal {f : Nat} {rest : Input} {o : Input × Expression}
    (hl : literalExpressionP ('\'' :: rest) = .ok o) :
    expressionP (f + 2) ('\'' :: rest) = .ok o :=
  expressionP_via_literal
    ⟨_, groupExpP_err (isPrefixOf_single _ (by decide))
      (isPrefixOf_single _ (by decide)) (isPrefixOf_single _ (by decide))
      (isPrefixOf_pair_head _ (by decide))⟩
    hl

/-- On a `#`-opened input, a successful `format_expression` is what
`expression` returns. -/
theorem expressionP_to_format {f : Nat} {rest : Input} {o : Input × Expression}
    (hf : formatExpressionP (f + 1) ('#' :: rest) = .ok o) :
    expressionP (f + 2) ('#' :: rest) = .ok o :=
  expressionP_via_format
    ⟨_, groupExpP_err (isPrefixOf_single _ (by decide))
      (isPrefixOf_single _ (by decide)) (isPrefixOf_single _ (by decide))
      (isPrefixOf_pair_head _ (by decide))⟩
    ⟨_, literalExpP_err (charP_ne (by decide) rest)⟩
    hf

/-- `separator_expression` re-parses each rendered glyph. -/
theorem sepDisp (s : Separator) (k : Input) :
    separatorExpressionP ((Separator.asStr s).data ++ k)
      = .ok (k, Expression.Separator s) := by
  cases s <;>
    simp +decide [separatorExpressionP, altP, mapP, tagP, Separator.asStr,
      List.isPrefixOf]

/-- `expression` re-parses a rendered separator glyph. -/
theorem expressionP_to_sep (f : Nat) (s : Separator) (k : Input) :
    expressionP (f + 2) ((Separator.asStr s).data ++ k)
      = .ok (k, Expression.Separator s) := by
  cases s <;>
    exact expressionP_via_sep
      ⟨_, groupExpP_err (isPrefixOf_single _ (by decide))
        (isPrefixOf_single _ (by decide)) (isPrefixOf_single _ (by decide))
        (isPrefixOf_pair_head _ (by decide))⟩
      ⟨_, literalExpP_err (charP_ne (by decide) _)⟩
      ⟨_, formatExpP_err (tagP_not (isPrefixOf_single _ (by decide)))⟩
      (sepDisp _ k)

/-- `take_until` splits a quote-free prefix at the appended target. -/
theorem splitAtChar_display {c : Char} :
    ∀ (xs : List Char), xs.contains c = false →
      ∀ k : Input, splitAtChar c (xs ++ c :: k) = some (xs, c :: k) := by
  intro xs
  induction xs with
  | nil => intro h k; simp [splitAtChar]
  | cons x xs ih =>
    intro h k
    simp only [List.contains_cons, Bool.or_eq_false_iff, beq_eq_false_iff_ne,
      ne_eq] at h
    obtain ⟨h1, h2⟩ := h
    have h2' : xs.contains c = false := by
      simp only [List.contains_eq_any_beq, List.any_eq_false]
      intro a ha
      simp only [List.contains_eq_any_beq, List.any_eq_false] at h2
      exact h2 a ha
    simp only [List.cons_append, splitAtChar]
    rw [if_neg fun he => h1 he.symm]
    simp [ih h2' k]

/-- `literal_expression` re-parses a rendered quote-free literal. -/
theorem litDisp (s : String) (k : Input) (h : s.data.contains '\'' = false) :
    literalExpressionP ('\'' :: (s.data ++ '\'' :: k))
      = .ok (k, Expression.Literal s) := by
  have hsplit := splitAtChar_display s.data h k
  unfold literalExpressionP
  simp [charP_self, mapFailP, mapErrP, takeUntilP, hsplit]

/-- Lemma B of the round-trip: with ample fuel (four units per rendered
character) every canonical expression, delimited sub-tree and expression
list re-parses from its rendering, consuming it exactly. -/
theorem roundAux : ∀ fuel : Nat,
    (∀ (e : Expression) (k : Input), e.canon = true → k.head? ≠ some '(' →
        4 * (Expression.display e).length + 2 ≤ fuel →
        expressionP fuel (Expression.display e ++ k) = .ok (k, e))
    ∧ (∀ (es : List Expression) (k : Input) (right : Input → PResult Char)
          (inp0 : Input) (rc : Char), canonList es = true →
        (rc = ')' ∨ rc = ']' ∨ rc = '>' ∨ rc = '\x7d') →
        right (rc :: k) = .ok (k, rc) →
        4 * (displayList es).length + 3 ≤ fuel →
        delimLoopP fuel right inp0 (displayList es ++ rc :: k) = .ok (k, es))
    ∧ (∀ es : List Expression, canonList es = true →
        4 * (displayList es).length + 3 ≤ fuel →
        manyExprsP fuel (displayList es) = .ok ([], es)) := by
  intro fuel
  induction fuel using Nat.strong_induction_on with
  | _ fuel ih =>
  refine ⟨?_, ?_, ?_⟩
  · -- expressionP on a rendered expression
    intro e k hcanon hk hfuel
    have hL : 1 ≤ (Expression.display e).length :=
      List.length_pos.mpr (display_ne_nil e)
    obtain ⟨f, rfl⟩ : ∃ f, fuel = f + 2 := ⟨fuel - 2, by omega⟩
    cases e with
    | Separator s =>
      simpa only [Expression.display] using expressionP_to_sep f s k
    | Literal s =>
      have hq : s.data.contains '\'' = false := by
        simpa [Expression.canon, Bool.not_eq_true'] using hcanon
      have hl := litDisp s k hq
      simp only [Expression.display, List.cons_append, List.append_assoc,
        List.singleton_append]
      exact expressionP_to_literal hl
    | Named name sub =>
      have hn1 : 1 ≤ (Name.display name).length := by
        cases name <;> simp [Name.display]
      cases sub with
      | nil =>
        have hdisp : Expression.display (.Named name []) ++ k
            = Name.display name ++ k := by
          simp [Expression.display]
        have hlen : (Expression.display (.Named name [])).length
            = (Name.display name).length := by
          simp [Expression.display]
        rw [hdisp, expressionP_to_named_name f name k]
        obtain ⟨g, rfl⟩ : ∃ g, f = g + 1 := ⟨f - 1, by omega⟩
        have hname := nameTokenP_display name k
        obtain ⟨e2, hsub⟩ : ∃ e2, subTreeP (g + 1) k = .error (.err e2) := by
          cases k with
          | nil => exact ⟨_, rfl⟩
          | cons c kk =>
            have hc : c ≠ '(' := by
              intro hcc; subst hcc; simp at hk
            exact ⟨ParseError.fromChar (c :: kk) '(',
              by simp [subTreeP, charP_ne hc]⟩
        simp only [namedExpressionP]
        simp [mapErrP_of_ok hname, hsub]
      | cons s ss =>
        have hcansub : canonList (s :: ss) = true := by
          simpa [Expression.canon] using hcanon
        have hdisp : Expression.display (.Named name (s :: ss)) ++ k
            = Name.display name ++ ('(' :: (displayList (s :: ss) ++ ')' :: k)) := by
          simp [Expression.display]
        have hlen : (Expression.display (.Named name (s :: ss))).length
            = (Name.display name).length + (displayList (s :: ss)).length + 2 := by
          simp [Expression.display]
          omega
        rw [hdisp, expressionP_to_named_name f name _]
        obtain ⟨g, rfl⟩ : ∃ g, f = g + 1 := ⟨f - 1, by omega⟩
        have hname := nameTokenP_display name
          ('(' :: (displayList (s :: ss) ++ ')' :: k))
        have hloop := (ih g (by omega)).2.1 (s :: ss) k
          (subTreeRight ('(' :: (displayList (s :: ss) ++ ')' :: k)))
          (displayList (s :: ss) ++ ')' :: k) ')' hcansub (Or.inl rfl)
          (mapErrP_of_ok (charP_self ')' k)) (by omega)
        simp only [namedExpressionP]
        simp [mapErrP_of_ok hname, subTreeP, charP_self, hloop]
    | Group d sub =>
      have hcansub : canonList sub = true := by
        simpa [Expression.canon] using hcanon
      cases d with
      | Angle =>
        have hdisp : Expression.display (.Group .Angle sub) ++ k
            = '<' :: (displayList sub ++ '>' :: k) := by
          simp [Expression.display]
        have hlen : (Expression.display (.Group .Angle sub)).length
            = (displayList sub).length + 2 := by
          simp [Expression.display]
        rw [hdisp]
        have hloop := (ih f (by omega)).2.1 sub k
          (groupRight ('<' :: (displayList sub ++ '>' :: k)) '>')
          (displayList sub ++ '>' :: k) '>' hcansub
          (Or.inr (Or.inr (Or.inl rfl)))
          (mapErrP_of_ok (charP_self '>' k)) (by omega)
        apply expressionP_via_group
        have htag : tagP ['<'] ('<' :: (displayList sub ++ '>' :: k))
            = .ok (displayList sub ++ '>' :: k, ['<']) :=
          tagP_self ['<'] (displayList sub ++ '>' :: k)
        simp [groupExpressionP, htag, hloop]
      | Square =>
        have hdisp : Expression.display (.Group .Square sub) ++ k
            = '[' :: (displayList sub ++ ']' :: k) := by
          simp [Expression.display]
        have hlen : (Expression.display (.Group .Square sub)).length
            = (displayList sub).length + 2 := by
          simp [Expression.display]
        rw [hdisp]
        have hloop := (ih f (by omega)).2.1 sub k
          (groupRight ('[' :: (displayList sub ++ ']' :: k)) ']')
          (displayList sub ++ ']' :: k) ']' hcansub
          (Or.inr (Or.inl rfl))
          (mapErrP_of_ok (charP_self ']' k)) (by omega)
        apply expressionP_via_group
        have htag : tagP ['['] ('[' :: (displayList sub ++ ']' :: k))
            = .ok (displayList sub ++ ']' :: k, ['[']) :=
          tagP_self ['['] (displayList sub ++ ']' :: k)
        simp [groupExpressionP,
          tagP_not (isPrefixOf_single (displayList sub ++ ']' :: k)
            (show '<' ≠ '[' by decide)),
          htag, hloop]
      | Curly =>
        have hdisp : Expression.display (.Group .Curly sub) ++ k
            = '\x7b' :: (displayList sub ++ '\x7d' :: k) := by
          simp [Expression.display]
        have hlen : (Expression.display (.Group .Curly sub)).length
            = (displayList sub).length + 2 := by
          simp [Expression.display]
        rw [hdisp]
        have hloop := (ih f (by omega)).2.1 sub k
          (groupRight ('\x7b' :: (displayList sub ++ '\x7d' :: k)) '\x7d')
          (displayList sub ++ '\x7d' :: k) '\x7d' hcansub
          (Or.inr (Or.inr (Or.inr rfl)))
          (mapErrP_of_ok (charP_self '\x7d' k)) (by omega)
        apply expressionP_via_group
        have htag : tagP ['\x7b'] ('\x7b' :: (displayList sub ++ '\x7d' :: k))
            = .ok (displayList sub ++ '\x7d' :: k, ['\x7b']) :=
          tagP_self ['\x7b'] (displayList sub ++ '\x7d' :: k)
        simp [groupExpressionP,
          tagP_not (isPrefixOf_single (displayList sub ++ '\x7d' :: k)
            (show '<' ≠ '\x7b' by decide)),
          tagP_not (isPrefixOf_single (displayList sub ++ '\x7d' :: k)
            (show '[' ≠ '\x7b' by decide)),
          htag, hloop]
      | Parens =>
        have hdisp : Expression.display (.Group .Parens sub) ++ k
            = '\\' :: '(' :: (displayList sub ++ ')' :: k) := by
          simp [Expression.display]
        have hlen : (Expression.display (.Group .Parens sub)).length
            = (displayList sub).length + 3 := by
          simp [Expression.display]
        rw [hdisp]
        have hloop := (ih f (by omega)).2.1 sub k
          (groupRight ('\\' :: '(' :: (displayList sub ++ ')' :: k)) ')')
          (displayList sub ++ ')' :: k) ')' hcansub (Or.inl rfl)
          (mapErrP_of_ok (charP_self ')' k)) (by omega)
        apply expressionP_via_group
        have htag : tagP ['\\', '('] ('\\' :: '(' :: (displayList sub ++ ')' :: k))
            = .ok (displayList sub ++ ')' :: k, ['\\', '(']) :=
          tagP_self ['\\', '('] (displayList sub ++ ')' :: k)
        simp [groupExpressionP,
          tagP_not (isPrefixOf_single ('(' :: (displayList sub ++ ')' :: k))
            (show '<' ≠ '\\' by decide)),
          tagP_not (isPrefixOf_single ('(' :: (displayList sub ++ ')' :: k))
            (show '[' ≠ '\\' by decide)),
          tagP_not (isPrefixOf_single ('(' :: (displayList sub ++ ')' :: k))
            (show '\x7b' ≠ '\\' by decide)),
          htag, hloop]
    | Format style sub =>
      have hc2 : style.rgbOk = true ∧ canonList sub = true := by
        simpa [Expression.canon, Bool.and_eq_true] using hcanon
      have hdisp : Expression.display (.Format style sub) ++ k
          = '#' :: (CompleteStyle.display style
              ++ '(' :: (displayList sub ++ ')' :: k)) := by
        simp [Expression.display]
      have hlen : (Expression.display (.Format style sub)).length
          = (CompleteStyle.display style).length + (displayList sub).length + 3 := by
        simp [Expression.display]
        omega
      rw [hdisp]
      apply expressionP_to_format
      obtain ⟨g, rfl⟩ : ∃ g, f = g + 1 := ⟨f - 1, by omega⟩
      have hfold := foldMany1Styles_display style hc2.1 (displayList sub ++ ')' :: k)
      have hloop := (ih g (by omega)).2.1 sub k
        (subTreeRight ('(' :: (displayList sub ++ ')' :: k)))
        (displayList sub ++ ')' :: k) ')' hc2.2 (Or.inl rfl)
        (mapErrP_of_ok (charP_self ')' k)) (by omega)
      have htag : tagP ['#'] ('#' :: (CompleteStyle.display style
          ++ '(' :: (displayList sub ++ ')' :: k)))
          = .ok (CompleteStyle.display style
              ++ '(' :: (displayList sub ++ ')' :: k), ['#']) :=
        tagP_self ['#']
          (CompleteStyle.display style ++ '(' :: (displayList sub ++ ')' :: k))
      simp only [formatExpressionP]
      simp [htag, hfold, subTreeP, charP_self, hloop]
  · -- delimLoopP on a rendered list before its closing delimiter
    intro es k right inp0 rc hcanon hrc hright hfuel
    obtain ⟨f, rfl⟩ : ∃ f, fuel = f + 1 := ⟨fuel - 1, by omega⟩
    cases es with
    | nil =>
      obtain ⟨g, rfl⟩ : ∃ g, f = g + 2 := ⟨f - 2, by omega⟩
      obtain ⟨e2, he⟩ := expressionP_stop g (rc :: k) (Or.inr ⟨rc, k, rfl, hrc⟩)
      simp only [displayList, List.nil_append, delimLoopP]
      simp [he, hright]
    | cons e es =>
      have hc1 : e.canon = true ∧ canonList es = true := by
        simpa [canonList, Bool.and_eq_true] using hcanon
      have hL : 1 ≤ (Expression.display e).length :=
        List.length_pos.mpr (display_ne_nil e)
      have hlen : (displayList (e :: es)).length
          = (Expression.display e).length + (displayList es).length := by
        simp [displayList]
      have hke : (displayList es ++ rc :: k).head? ≠ some '(' := by
        apply displayList_head_ne
        rcases hrc with rfl | rfl | rfl | rfl <;> simp
      have hee := (ih f (by omega)).1 e (displayList es ++ rc :: k) hc1.1 hke
        (by omega)
      have hrest := (ih f (by omega)).2.1 es k right inp0 rc hc1.2 hrc hright
        (by omega)
      have hne : displayList es ++ rc :: k
          ≠ Expression.display e ++ (displayList es ++ rc :: k) :=
        ne_append_of_ne_nil (display_ne_nil e)
      simp only [displayList, List.append_assoc, delimLoopP]
      simp [hee, hrest, display_ne_nil e]
  · -- manyExprsP on a whole rendered list
    intro es hcanon hfuel
    obtain ⟨f, rfl⟩ : ∃ f, fuel = f + 1 := ⟨fuel - 1, by omega⟩
    cases es with
    | nil =>
      obtain ⟨g, rfl⟩ : ∃ g, f = g + 2 := ⟨f - 2, by omega⟩
      obtain ⟨e2, he⟩ := expressionP_stop g [] (Or.inl rfl)
      simp only [displayList, manyExprsP]
      simp [he]
    | cons e es =>
      have hc1 : e.canon = true ∧ canonList es = true := by
        simpa [canonList, Bool.and_eq_true] using hcanon
      have hL : 1 ≤ (Expression.display e).length :=
        List.length_pos.mpr (display_ne_nil e)
      have hlen : (displayList (e :: es)).length
          = (Expression.display e).length + (displayList es).length := by
        simp [displayList]
      have hke : (displayList es).head? ≠ some '(' := by
        have h0 := displayList_head_ne es ([] : Input) (by simp)
        simpa using h0
      have hee := (ih f (by omega)).1 e (displayList es) hc1.1 hke (by omega)
      have hrest := (ih f (by omega)).2.2 es hc1.2 (by omega)
      have hne : displayList es ≠ Expression.display e ++ displayList es :=
        ne_append_of_ne_nil (display_ne_nil e)
      simp only [displayList, manyExprsP]
      simp [hee, hrest, display_ne_nil e]

/-- A canonical tree's rendering parses back to the tree. -/
theorem parse_displayList (es : List Expression) (h : canonList es = true) :
    parse (displayList es) = .Ok es := by
  have hm := (roundAux (parseFuel (displayList es))).2.2 es h
    (by simp [parseFuel])
  simp [parse, hm]

/-- Every tree `parse` accepts is canonical. -/
theorem parse_canon {s : Input} {t : List Expression} (h : parse s = .Ok t) :
    canonList t = true := by
  unfold parse at h
  split at h
  · rename_i t2 heq
    have ht : t2 = t := by
      simpa using h
    subst ht
    exact (canonAux (parseFuel s)).2.2.2.2.2.2 s [] t2 heq
  · exact ParseResult.noConfusion h
  · exact ParseResult.noConfusion h
  · exact ParseResult.noConfusion h
  · exact ParseResult.noConfusion h

/-! ## Claim C1 -/

/-- C1: round-trip invariant.  For every input string `s` that `parse`
accepts with tree `t` (`parse(s) = Ok(t)`), rendering `t` through the
AST's canonical `Display` form (`format!("{}", t)`, here `displayList t`)
and parsing that rendering yields the identical tree:
`parse(format!("{}", t)) == Ok(t)`. -/
theorem C1_parse_display_roundtrip (s : Input) (t : List Expression)
    (h : parse s = .Ok t) : parse (displayList t) = .Ok t :=
  parse_displayList t (parse_canon h)

/-- Witness for C1: the literal format string `'x'` parses to
`[Literal "x"]`, and its rendering re-parses to the same tree. -/
theorem C1_parse_display_roundtrip_witness :
    parse ['\'', 'x', '\''] = .Ok [Expression.Literal "x"]
      ∧ parse (displayList [Expression.Literal "x"])
          = .Ok [Expression.Literal "x"] :=
  ⟨rfl, C1_parse_display_roundtrip ['\'', 'x', '\''] [Expression.Literal "x"] rfl⟩

end Glitter
